import Mathlib

/-
Verification of the room-identification core of the Plan_Ground repository
(src/backend/identify_rooms.py) against its natural-language specification.

The Python source is shallowly embedded over exact rational arithmetic:

* Points are pairs of rationals; the source's float arithmetic is modelled
  by ℚ.  Comparisons of the form `hypot(v) <= tol` are embedded either via
  the exact equivalence `0 ≤ tol ∧ ‖v‖² ≤ tol²`, or through ratSqrt
  (the floor square root of a rational, exact on perfect squares).  All
  concrete inputs evaluated in theorems below are arranged so that every
  square root that influences a result is a perfect square, hence exact.
* The source's angle computations `degrees(atan2(dy,dx)) % 180` followed by
  a folded-difference comparison against a tolerance T are embedded by the
  exact trigonometric equivalence
     folded-angle-difference ≤ T  ↔  cross(vᵢ,vⱼ)² ≤ sin²(T)·‖vᵢ‖²‖vⱼ‖²
  with sin²(T) replaced by a close rational constant.  `atan2 0 0 = 0` in
  Python, so a zero direction vector is replaced by (1,0) first.
* Python's process-global random generator (`random.seed(42)`, then one
  `random.random()` per segment) is modelled by an abstract seeded stream:
  the state is a natural number, `seed 42` sets it to 42, and each draw
  yields a rational strictly between 0 and 1 and advances the state.
* `xml.etree.ElementTree` parsing is external; the embedding starts from
  its outcome: `none` models a ParseError, `some doc` the list of elements
  produced by `root.iter()` in document order.
* `shapely`'s availability is a boolean parameter; its `polygonize` is a
  function parameter; its polygons are modelled by their outer ring, with
  `area` the shoelace area and `bounds` the axis-aligned extremes, plus a
  boolean `valid` mirroring `is_valid`.
* Python `set`s of small integers / frozensets are modelled by insertion
  ordered deduplicated lists; a `frozenset` pair is a sorted list of one
  or two indices (the source's `frozenset({r1, r2})` collapses to a
  singleton when `r1 = r2`, and `A, B = tuple(pair)` then raises
  ValueError; the embedding models that raise explicitly).
* Exceptions escaping `identify` are modelled by an `Except PyErr` result.
-/

namespace PlanGround

/-- Points of the plane, modelled over ℚ. -/
abbrev Pt := ℚ × ℚ

/-- A primitive segment: a pair of endpoints, as built by the flattener. -/
abbrev Seg := Pt × Pt

/-- Generic numeric zero of the source: EPS = 1.0e-9. -/
def EPS : ℚ := 1 / 1000000000

def ptAdd (p q : Pt) : Pt := (p.1 + q.1, p.2 + q.2)

def ptSub (p q : Pt) : Pt := (p.1 - q.1, p.2 - q.2)

def ptSmul (c : ℚ) (p : Pt) : Pt := (c * p.1, c * p.2)

/-- The source's cross_2d: a[0]*b[1] - a[1]*b[0]. -/
def cross2d (a b : Pt) : ℚ := a.1 * b.2 - a.2 * b.1

def dot2d (a b : Pt) : ℚ := a.1 * b.1 + a.2 * b.2

/-- Squared Euclidean norm. -/
def normSq (p : Pt) : ℚ := p.1 * p.1 + p.2 * p.2

/-- Newton iteration for the natural floor square root (the same
algorithm as Nat.sqrt, written with structural fuel recursion so that it
reduces inside the kernel). -/
def sqrtIter : ℕ → ℕ → ℕ → ℕ
  | 0, _, g => g
  | fuel + 1, n, g =>
    let next := (g + n / g) / 2
    if next < g then sqrtIter fuel n next else g

/-- Floor square root of a natural number. -/
def natSqrt (n : ℕ) : ℕ := if n ≤ 1 then n else sqrtIter n n (n / 2)

/-- Floor square root of a rational (componentwise floor square root of
the reduced numerator and denominator, like Rat.sqrt): the rational
stand-in for float sqrt, exact on perfect squares. -/
def ratSqrt (q : ℚ) : ℚ := mkRat (natSqrt q.num.toNat) (natSqrt q.den)

/-- Rational stand-in for the float Euclidean norm np.linalg.norm: the floor
square root of the squared norm.  Exact whenever the squared norm is a
perfect square (true of every norm influencing a concrete run below). -/
def normQ (p : Pt) : ℚ := ratSqrt (normSq p)

/-- The source's unit(v) = v/n if n else v. -/
def unitQ (p : Pt) : Pt := if normQ p = 0 then p else ptSmul (1 / normQ p) p

/-- Distance helper dist(P, Q) = math.hypot(...), with the same rational
square-root stand-in as normQ. -/
def distQ (p q : Pt) : ℚ := normQ (ptSub p q)

/-- Coordinate quantisation used for endpoint hashing: round(x, 6).
Python rounds floats half-to-even on a binary grid; no input considered
here sits on a half, so plain rounding is faithful. -/
def round6 (q : ℚ) : ℚ := (round (q * 1000000) : ℚ) / 1000000

/-- Python float() on a string, restricted to the decimal forms occurring
in SVG numeric attributes: optional surrounding whitespace, optional sign,
integer and/or fractional digits, optional decimal exponent.  Returns
none where Python float() raises ValueError.  (Python also accepts
inf/nan and underscore separators; none of the claims involve those, and
omitting them only narrows the success set of the model.) -/
def isDigitCh (c : Char) : Bool := ('0' ≤ c && c ≤ '9')

def digitVal (c : Char) : ℕ := c.toNat - '0'.toNat

def isSpaceCh (c : Char) : Bool := c = ' ' || c = '\t' || c = '\n' || c = '\r'

/-- Consume a run of digits, returning their value, their count, and the rest. -/
def takeDigits : List Char → ℕ → ℕ → ℕ × ℕ × List Char
  | [], acc, n => (acc, n, [])
  | c :: cs, acc, n =>
    if isDigitCh c then takeDigits cs (acc * 10 + digitVal c) (n + 1)
    else (acc, n, c :: cs)

/-- Parse the optional exponent part; returns none on a malformed exponent. -/
def parseExpPart : List Char → Option ℤ
  | [] => some 0
  | c :: cs =>
    if c = 'e' || c = 'E' then
      let (sgn, cs') : ℤ × List Char :=
        match cs with
        | '+' :: r => (1, r)
        | '-' :: r => (-1, r)
        | r => (1, r)
      let (v, n, rest) := takeDigits cs' 0 0
      if n = 0 then none
      else if rest = [] then some (sgn * (v : ℤ)) else none
    else none

/-- Parse mantissa and exponent of a float literal (no sign, no whitespace). -/
def parseMantissa (cs : List Char) : Option ℚ :=
  let (ip, ni, rest) := takeDigits cs 0 0
  match rest with
  | '.' :: rest' =>
    let (fp, nf, rest'') := takeDigits rest' 0 0
    if ni = 0 && nf = 0 then none
    else
      match parseExpPart rest'' with
      | none => none
      | some e =>
        let base : ℚ := (ip : ℚ) + (fp : ℚ) / ((10 : ℚ) ^ nf)
        some (base * (10 : ℚ) ^ e)
  | _ =>
    if ni = 0 then none
    else
      match parseExpPart rest with
      | none => none
      | some e => some ((ip : ℚ) * (10 : ℚ) ^ e)

/-- Python float(s) for a string, as an Option (none models ValueError). -/
def pyFloat (s : String) : Option ℚ :=
  let cs := (s.toList.dropWhile (fun c => isSpaceCh c)).reverse.dropWhile
      (fun c => isSpaceCh c) |>.reverse
  match cs with
  | [] => none
  | '+' :: r => parseMantissa r
  | '-' :: r => (parseMantissa r).map (fun q => -q)
  | r => parseMantissa r

/-- Exceptions that can escape the Python function to its caller. -/
inductive PyErr where
  | valueError
  | indexError
deriving DecidableEq, Repr

deriving instance DecidableEq for Except

/-- An SVG element after XML parsing: tag plus attribute dictionary.  A
parsed document is the list of elements visited by root.iter(), in
document order (the root element included). -/
structure Element where
  tag : String
  attrib : List (String × String)
deriving DecidableEq, Repr

/-- Python el.attrib.get(k): first binding of k, if any. -/
def attrGet (el : Element) (k : String) : Option String :=
  (el.attrib.find? (fun p => p.1 = k)).map (fun p => p.2)

/-- Suffix after the first occurrence of a non-empty pattern, on
character lists. -/
def afterFirstChars (pat : List Char) : List Char → Option (List Char)
  | [] => none
  | c :: cs =>
    if pat.isPrefixOf (c :: cs) then some ((c :: cs).drop pat.length)
    else afterFirstChars pat cs

/-- Prefix before the first occurrence of a non-empty pattern, on
character lists (the whole list when the pattern is absent). -/
def beforeFirstChars (pat : List Char) : List Char → List Char
  | [] => []
  | c :: cs =>
    if pat.isPrefixOf (c :: cs) then [] else c :: beforeFirstChars pat cs

/-- Python s.split(sep, 1)[1]: the text after the first occurrence of sep,
or none when sep does not occur (IndexError). -/
def afterFirst (s sep : String) : Option String :=
  (afterFirstChars sep.toList s.toList).map String.mk

/-- Python s.split(sep, 1)[0]: the text before the first occurrence. -/
def beforeFirst (s sep : String) : String :=
  String.mk (beforeFirstChars sep.toList s.toList)

/-- Python (sub in s) for a non-empty pattern. -/
def containsSub (s sub : String) : Bool :=
  (afterFirstChars sub.toList s.toList).isSome

/-- The source's _strip_ns: tag.split(chr(125), 1)[-1], i.e. everything
after the first closing brace of a namespaced tag, else the tag itself. -/
def stripNs (s : String) : String := ((afterFirst s "\x7d").getD s)

/-- The stroke text chosen by the source:
el.attrib.get(quote(stroke-width)) or el.attrib.get(quote(style), empty). -/
def strokeText (el : Element) : String :=
  let style := (attrGet el "style").getD ""
  match attrGet el "stroke-width" with
  | some s => if s = "" then style else s
  | none => style

/-- The numeric text of the stroke width after the inlined-CSS extraction
(split on the property name, then after the colon, then before the
semicolon; a missing colon raises IndexError which the source turns
into the text 1). -/
def strokeValText (el : Element) : String :=
  let sw := strokeText el
  if containsSub sw "stroke-width" then
    match afterFirst sw "stroke-width" with
    | some rest =>
      match afterFirst rest ":" with
      | some v => beforeFirst v ";"
      | none => "1"
    | none => "1"
  else sw

/-- stroke_w = float(sw_txt or 1.0); a ValueError from float() escapes. -/
def strokeWidth (el : Element) : Except PyErr ℚ :=
  let sv := strokeValText el
  if sv = "" then .ok 1
  else
    match pyFloat sv with
    | some q => .ok q
    | none => .error .valueError

/-- Whitespace split of a character list, dropping empty tokens (the
semantics of Python str.split with no arguments); cur accumulates the
current token in reverse. -/
def splitWsChars : List Char → List Char → List String
  | [], cur => if cur.isEmpty then [] else [String.mk cur.reverse]
  | c :: cs, cur =>
    if isSpaceCh c then
      if cur.isEmpty then splitWsChars cs []
      else String.mk cur.reverse :: splitWsChars cs []
    else splitWsChars cs (c :: cur)

/-- Whitespace-token split of the points attribute after replacing commas
with blanks (Python str.replace then str.split with no arguments). -/
def tokensOf (s : String) : List String :=
  splitWsChars (s.toList.map (fun c => if c = ',' then ' ' else c)) []

/-- list(map(float, tokens)): the first unparseable token raises. -/
def mapFloats : List String → Except PyErr (List ℚ)
  | [] => .ok []
  | s :: rest =>
    match pyFloat s with
    | none => .error .valueError
    | some q =>
      match mapFloats rest with
      | .error e => .error e
      | .ok qs => .ok (q :: qs)

/-- list(zip(pts[0::2], pts[1::2])): consecutive coordinate pairs, with a
dangling odd coordinate dropped by zip. -/
def pairUp : List ℚ → List Pt
  | x :: y :: rest => (x, y) :: pairUp rest
  | _ => []

/-- Character class of the path-data regex groups: digits, dot, minus. -/
def isClsCh (c : Char) : Bool := isDigitCh c || c = '.' || c = '-'

/-- Regex whitespace class backslash-s. -/
def isRegexSpace (c : Char) : Bool := isSpaceCh c || c.toNat = 11 || c.toNat = 12

/-- Attempt the path-data pattern at the head of the character list:
one of M, L, m, l; optional whitespace; a first digits-dot-minus group;
one blank or comma; a second group.  The character classes are disjoint
from their followers, so the greedy match needs no backtracking.
Returns both groups and the remaining characters. -/
def tryMatchAt : List Char → Option (String × String × List Char)
  | [] => none
  | c :: cs =>
    if c = 'M' || c = 'L' || c = 'm' || c = 'l' then
      let cs1 := cs.dropWhile isRegexSpace
      let g1 := cs1.takeWhile isClsCh
      if g1.isEmpty then none
      else
        match cs1.dropWhile isClsCh with
        | [] => none
        | sep :: rest2 =>
          if sep = ' ' || sep = ',' then
            let g2 := rest2.takeWhile isClsCh
            if g2.isEmpty then none
            else some (String.mk g1, String.mk g2, rest2.dropWhile isClsCh)
          else none
    else none

/-- Left-to-right non-overlapping scan of re.findall for the path pattern;
fuel bounds the number of scan steps (each consumes at least one char). -/
def findPairsAux : ℕ → List Char → List (String × String)
  | 0, _ => []
  | _, [] => []
  | fuel + 1, c :: cs =>
    match tryMatchAt (c :: cs) with
    | some (g1, g2, rest) => (g1, g2) :: findPairsAux fuel rest
    | none => findPairsAux fuel cs

/-- re.findall of the straight-line path pattern over the d attribute. -/
def reFindPairs (s : String) : List (String × String) :=
  findPairsAux (s.toList.length + 1) s.toList

/-- float() over both components of each regex match. -/
def mapFloatPairs : List (String × String) → Except PyErr (List Pt)
  | [] => .ok []
  | (a, b) :: rest =>
    match pyFloat a, pyFloat b with
    | some x, some y =>
      match mapFloatPairs rest with
      | .error e => .error e
      | .ok ps => .ok ((x, y) :: ps)
    | _, _ => .error .valueError

/-- Contribution of one element to the polyline list (the body of the
for-el loop of _extract_polylines).  An empty list models a continue. -/
def extractElem (el : Element) : Except PyErr (List (List Pt)) :=
  let tag := stripNs el.tag
  match strokeWidth el with
  | .error e => .error e
  | .ok sw =>
    if sw < 3 / 2 then .ok []
    else if tag = "polyline" || tag = "polygon" then
      let raw := tokensOf ((attrGet el "points").getD "")
      if raw.length < 4 then .ok []
      else
        match mapFloats raw with
        | .error e => .error e
        | .ok pts => .ok [pairUp pts]
    else if tag = "line" then
      match attrGet el "x1", attrGet el "y1", attrGet el "x2", attrGet el "y2" with
      | some a, some b, some c, some d =>
        match pyFloat a, pyFloat b, pyFloat c, pyFloat d with
        | some x1, some y1, some x2, some y2 => .ok [[(x1, y1), (x2, y2)]]
        | _, _, _, _ => .ok []
      | _, _, _, _ => .ok []
    else if tag = "path" then
      let d := (attrGet el "d").getD ""
      if d = "" then .ok []
      else
        let ms := reFindPairs d
        if ms.length < 2 then .ok []
        else
          match mapFloatPairs ms with
          | .error e => .error e
          | .ok pts => if 2 ≤ pts.length then .ok [pts] else .ok []
    else .ok []

/-- The element loop of _extract_polylines over a parsed document. -/
def extractLoop : List Element → Except PyErr (List (List Pt))
  | [] => .ok []
  | el :: els =>
    match extractElem el with
    | .error e => .error e
    | .ok ps =>
      match extractLoop els with
      | .error e => .error e
      | .ok rest => .ok (ps ++ rest)

/-- _extract_polylines applied to the outcome of ET.fromstring: a
ParseError (none) yields the empty polyline list. -/
def extractPolylines : Option (List Element) → Except PyErr (List (List Pt))
  | none => .ok []
  | some els => extractLoop els

/-- Syntactic numeric-parse condition for one element: every string that
the element loop passes to float() parses.  This mirrors the float call
sites of extractElem without computing its outcome. -/
def elemParses (el : Element) : Bool :=
  (decide (strokeValText el = "") || (pyFloat (strokeValText el)).isSome) &&
    (let tag := stripNs el.tag
     if tag = "polyline" || tag = "polygon" then
       let raw := tokensOf ((attrGet el "points").getD "")
       decide (raw.length < 4) || raw.all (fun t => (pyFloat t).isSome)
     else if tag = "path" then
       let d := (attrGet el "d").getD ""
       decide (d = "") || decide ((reFindPairs d).length < 2) ||
         (reFindPairs d).all (fun ab =>
           (pyFloat ab.1).isSome && (pyFloat ab.2).isSome)
     else true)

/-- Step 5: flatten thick polylines into segments, one per consecutive
point pair.  Nothing is dropped here; zero-length pairs are kept. -/
def flattenSegs (polys : List (List Pt)) : List Seg :=
  (polys.map (fun poly => poly.zip poly.tail)).flatten

/-- Direction vector carrying the source's per-segment orientation
degrees(atan2(dy, dx)) % 180: a zero segment has atan2 0 0 = 0, i.e. the
same orientation as the direction (1, 0). -/
def orientDir (s : Seg) : Pt :=
  let d := ptSub s.2 s.1
  if d = (0, 0) then (1, 0) else d

/-- Rational approximation of sin²(5°): the Pair-Grower angular tolerance
ANG_TOL = 5 degrees in the squared-sine encoding (folded orientation
difference ≤ T  ↔  cross² ≤ sin²T·‖di‖²·‖dj‖² for the atan2 orientations
carried by orientDir). -/
def SIN2_ANG_TOL : ℚ := 75961235 / 10 ^ 10

/-- Rational approximation of sin²(3°): the skeleton alignment tolerance
ANG_TOL_ALIGN = 3 degrees in the squared-sine encoding. -/
def SIN2_ANG_ALIGN : ℚ := 27390523 / 10 ^ 10

/-- Folded angular difference of two orientation-carrying directions is
within the squared-sine tolerance tol2. -/
def withinAngTol (tol2 : ℚ) (di dj : Pt) : Bool :=
  decide (cross2d di dj ^ 2 ≤ tol2 * (normSq di * normSq dj))

/-- The source's is_parallel(i, j) on segment indices. -/
def isParallelIdx (segs : List Seg) (i j : ℕ) : Bool :=
  match segs.get? i, segs.get? j with
  | some si, some sj => withinAngTol SIN2_ANG_TOL (orientDir si) (orientDir sj)
  | _, _ => false

/-- Seed constant of the Caster random stream. -/
def RANDOM_SEED : ℕ := 42

/-- Abstract model of the stdlib seeded pseudo-random stream: the state is
a natural number; random.seed(42) sets it to 42; each draw yields a
rational strictly inside (0, 1) and advances the state.  Any fixed
deterministic stream models the seeded Mersenne twister for the purposes
of the claims; none of them depends on particular draw values. -/
def randVal (s : ℕ) : ℚ := ((s % 7 : ℕ) + 1 : ℚ) / 9

/-- random.random(): one draw plus the successor state. -/
def randomRandom (s : ℕ) : ℚ × ℕ := (randVal s, s + 1)

/-- Step 6: one pseudo-random point per segment, threading the stream
state (the caller seeds the state first, as identify does). -/
def randPointsFrom : List Seg → ℕ → List Pt × ℕ
  | [], s => ([], s)
  | ((x1, y1), (x2, y2)) :: rest, s =>
    let ts := randomRandom s
    let ps := randPointsFrom rest ts.2
    ((x1 + ts.1 * (x2 - x1), y1 + ts.1 * (y2 - y1)) :: ps.1, ps.2)

/-- The source's intersect_ray_segment: solve P + t·d = Q1 + u·(Q2−Q1),
requiring t ≥ 0 and u ∈ [0, 1]; a denominator below EPS in magnitude is
treated as non-intersecting. -/
def intersectRaySeg (P d Q1 Q2 : Pt) : Option (ℚ × Pt) :=
  let r := ptSub Q2 Q1
  let denom := cross2d d r
  if |denom| < EPS then none
  else
    let t := cross2d (ptSub Q1 P) r / denom
    let u := cross2d (ptSub Q1 P) d / denom
    if 0 ≤ t ∧ 0 ≤ u ∧ u ≤ 1 then some (t, ptAdd P (ptSmul t d)) else none

/-- Keep the strictly smaller parameter (best_t starts at infinity and is
replaced only on t < best_t). -/
def betterHit (best hit : Option (ℚ × Pt)) : Option (ℚ × Pt) :=
  match hit with
  | none => best
  | some tp =>
    match best with
    | none => some tp
    | some bq => if tp.1 < bq.1 then some tp else some bq

/-- Step 8 for one segment: cast both scaled normals from P0 against every
other segment and keep the hit with the smallest parameter.  The source
divides the normals by np.linalg.norm(v) or 1.0; the rational square-root
stand-in only rescales both directions identically, leaving the returned
hit point and the best-hit comparison unchanged. -/
def bestHitFor (segs : List Seg) (idx : ℕ) (P0 : Pt) : Option Pt :=
  match segs.get? idx with
  | none => none
  | some ((x1, y1), (x2, y2)) =>
    let v : Pt := (x2 - x1, y2 - y1)
    let vn := if normQ v = 0 then 1 else normQ v
    let n1 : Pt := (-v.2 / vn, v.1 / vn)
    let n2 : Pt := (v.2 / vn, -v.1 / vn)
    let step := fun (best : Option (ℚ × Pt)) (d : Pt) =>
      segs.enum.foldl (fun b jq =>
        if jq.1 = idx then b
        else betterHit b (intersectRaySeg P0 d jq.2.1 jq.2.2)) best
    (step (step none n1) n2).map (fun tp => tp.2)

/-- pairs_dict: segment index to nearest normal hit point, in index order
(dict insertion order). -/
def pairsDictOf (segs : List Seg) (rpts : List Pt) : List (ℕ × Pt) :=
  segs.enum.filterMap (fun jq =>
    match rpts.get? jq.1 with
    | none => none
    | some P0 => (bestHitFor segs jq.1 P0).map (fun p => (jq.1, p)))

/-- The source's point_on_segment with tolerance 1e-6: collinearity via
cross product, betweenness via two dot products. -/
def pointOnSegment (P Q1 Q2 : Pt) : Bool :=
  let tol : ℚ := 1 / 1000000
  if |cross2d (ptSub Q2 Q1) (ptSub P Q1)| > tol then false
  else
    decide (-tol ≤ dot2d (ptSub P Q1) (ptSub Q2 Q1)) &&
      decide (-tol ≤ dot2d (ptSub P Q2) (ptSub Q1 Q2))

/-- One stripe pair: the canonical list form of frozenset(r1, r2) for
small index sets — sorted, and collapsed to a singleton when r1 = r2. -/
def mkPair (a b : ℕ) : List ℕ :=
  if a = b then [a] else if a < b then [a, b] else [b, a]

/-- Set insertion in insertion order (Python set.add on a set modelled as
an insertion-ordered duplicate-free list). -/
def insertPair (ps : List (List ℕ)) (p : List ℕ) : List (List ℕ) :=
  if p ∈ ps then ps else ps ++ [p]

/-- First segment j ≠ idxA on which P1 lies. -/
def findIdxB (segs : List Seg) (idxA : ℕ) (P1 : Pt) : Option ℕ :=
  (segs.enum.find? (fun jq =>
    decide (jq.1 ≠ idxA) && pointOnSegment P1 jq.2.1 jq.2.2)).map (fun jq => jq.1)

/-- Pair-Seeder gap allowance. -/
def MAX_GAP_RATIO : ℚ := 2

/-- Pair-Seeder body for one pairs_dict entry (source lines 234-282):
locate the mate segment idxB under P1, build the candidate mate points P2
on segment idxA, cast from each P2 along (P1−P0)/‖P1−P0‖ and accept the
stripe pair when the first casting candidate hits idxB within
MAX_GAP_RATIO times the stripe width. -/
def seedFor (segs : List Seg) (rpts : List Pt) (idxA : ℕ) (P1 : Pt) :
    Option (List ℕ) :=
  match rpts.get? idxA, segs.get? idxA with
  | some P0, some ((x1, y1), (x2, y2)) =>
    match findIdxB segs idxA P1 with
    | none => none
    | some idxB =>
      let v : Pt := (x2 - x1, y2 - y1)
      let L := normQ v
      if L = 0 then none
      else
        let vhat := ptSmul (1 / L) v
        let t0 := dot2d (ptSub P0 (x1, y1)) vhat / L
        let dd := normQ (ptSub P1 P0)
        let dt := dd / L
        let candidates := ([-1, 1] : List ℚ).filterMap (fun sign =>
          let t2 := t0 + sign * dt
          if 0 ≤ t2 ∧ t2 ≤ 1 then some (ptAdd (x1, y1) (ptSmul t2 v)) else none)
        let dirVec := ptSub P1 P0
        let nLen := normQ dirVec
        if nLen < EPS then none
        else
          let dHat := ptSmul (1 / nLen) dirVec
          match segs.get? idxB with
          | none => none
          | some (B1, B2) =>
            match candidates.find? (fun P2 =>
                match intersectRaySeg P2 dHat B1 B2 with
                | some tp => decide (tp.1 ≤ MAX_GAP_RATIO * dd)
                | none => false) with
            | some _ => some (mkPair idxA idxB)
            | none => none
  | _, _ => none

/-- First generation of stripe pairs, in pairs_dict order. -/
def seedPairs (segs : List Seg) (rpts : List Pt) : List (List ℕ) :=
  (pairsDictOf segs rpts).foldl (fun acc ip =>
    match seedFor segs rpts ip.1 ip.2 with
    | some p => insertPair acc p
    | none => acc) []

/-- Endpoint-coincidence tolerance EPS_PT = 1e-6 of the grower. -/
def EPS_PT : ℚ := 1 / 1000000

/-- The source's same_pt: componentwise closeness within EPS_PT. -/
def samePt (P Q : Pt) : Bool :=
  decide (|P.1 - Q.1| ≤ EPS_PT) && decide (|P.2 - Q.2| ≤ EPS_PT)

/-- Quantised endpoint key: both coordinates rounded to 6 decimals. -/
def quantKey (P : Pt) : Pt := (round6 P.1, round6 P.2)

/-- pt2segs lookup: indices of segments having an endpoint at the given
quantised key (the dict is only read through membership and set union,
so the functional view is equivalent to the insertion-built dict). -/
def pt2segsAt (segs : List Seg) (key : Pt) : List ℕ :=
  segs.enum.filterMap (fun jq =>
    if quantKey jq.2.1 = key || quantKey jq.2.2 = key then some jq.1 else none)

/-- Stable insertion of one element into a sorted list: the new element
goes after every existing element that is ≤ it. -/
def insertSorted (le : α → α → Bool) (a : α) : List α → List α
  | [] => [a]
  | b :: bs => if le b a then b :: insertSorted le a bs else a :: b :: bs

/-- Stable ascending sort (the semantics of Python's stable list.sort,
written structurally). -/
def sortLe (le : α → α → Bool) (l : List α) : List α :=
  l.foldl (fun acc a => insertSorted le a acc) []

/-- Duplicate removal keeping first occurrences. -/
def dedupGo [DecidableEq α] : List α → List α → List α
  | [], _ => []
  | a :: as, seen =>
    if a ∈ seen then dedupGo as seen else a :: dedupGo as (a :: seen)

/-- reds_adjacent_to: the set of lonely segments sharing a quantised
endpoint with the given segment, enumerated in index order (the source
iterates a set of small integers; the spec mandates index order). -/
def redsAdjacentTo (segs : List Seg) (sg : Seg) (lonely : List ℕ) : List ℕ :=
  sortLe (fun a b => decide (a ≤ b))
    (dedupGo (((pt2segsAt segs (quantKey sg.1)).filter (fun j => j ∈ lonely)) ++
      ((pt2segsAt segs (quantKey sg.2)).filter (fun j => j ∈ lonely))) [])

/-- A, B = tuple(pair): raises ValueError unless the frozenset has exactly
two elements (the source's singleton pairs make this raise). -/
def unpackPair : List ℕ → Except PyErr (ℕ × ℕ)
  | [a, b] => .ok (a, b)
  | _ => .error .valueError

/-- The cross-adjacency pattern deciding that segment (U1, U2) is a
connector of the stripe pair (endA, endB). -/
def connectorScan (endA endB : Seg) (U1 U2 : Pt) : Bool :=
  ((samePt U1 endA.1 || samePt U1 endA.2) && (samePt U2 endB.1 || samePt U2 endB.2)) ||
    ((samePt U2 endA.1 || samePt U2 endA.2) && (samePt U1 endB.1 || samePt U1 endB.2))

/-- Scan the stripe pairs, in order, for one matching the connector
pattern; every scanned pair is unpacked first, so a malformed pair ahead
of the first match raises. -/
def isConnectorGo (segs : List Seg) (U1 U2 : Pt) :
    List (List ℕ) → Except PyErr Bool
  | [] => .ok false
  | p :: rest =>
    match unpackPair p with
    | .error e => .error e
    | .ok ab =>
      match segs.get? ab.1, segs.get? ab.2 with
      | some sa, some sb =>
        if connectorScan sa sb U1 U2 then .ok true
        else isConnectorGo segs U1 U2 rest
      | _, _ => .error .indexError

/-- Connector classification of all ungrouped segments (in index order). -/
def classifyLoop (segs : List Seg) (pairs : List (List ℕ)) :
    List ℕ → Except PyErr (List ℕ)
  | [] => .ok []
  | u :: us =>
    match segs.get? u with
    | none => .error .indexError
    | some uv =>
      match isConnectorGo segs uv.1 uv.2 pairs with
      | .error e => .error e
      | .ok b =>
        match classifyLoop segs pairs us with
        | .error e => .error e
        | .ok rest => .ok (if b then u :: rest else rest)

/-- Inner search of the grower step: the first r2 of cand_B parallel to
r1 (note the source never requires r1 ≠ r2). -/
def parallelCand (segs : List Seg) (r1 : ℕ) : List ℕ → Option ℕ
  | [] => none
  | r2 :: rest =>
    if isParallelIdx segs r1 r2 then some r2 else parallelCand segs r1 rest

/-- Outer search of the grower step: the first r1 of cand_A admitting a
parallel r2; one success ends the whole search for this stripe pair
(the break on r1 in used). -/
def findGrowPair (segs : List Seg) (candB : List ℕ) :
    List ℕ → Option (ℕ × ℕ)
  | [] => none
  | r1 :: rest =>
    match parallelCand segs r1 candB with
    | some r2 => some (r1, r2)
    | none => findGrowPair segs candB rest

/-- One growth sweep over the existing stripe pairs, threading new_pairs
and used (source lines 337-348). -/
def growNewGo (segs : List Seg) (lonely : List ℕ) :
    List (List ℕ) → List (List ℕ) → List ℕ → Except PyErr (List (List ℕ))
  | [], acc, _ => .ok acc
  | p :: rest, acc, used =>
    match unpackPair p with
    | .error e => .error e
    | .ok ab =>
      match segs.get? ab.1, segs.get? ab.2 with
      | some sa, some sb =>
        let candA := (redsAdjacentTo segs sa lonely).filter (fun r => r ∉ used)
        let candB := (redsAdjacentTo segs sb lonely).filter (fun r => r ∉ used)
        match findGrowPair segs candB candA with
        | some rr =>
          growNewGo segs lonely rest (insertPair acc (mkPair rr.1 rr.2))
            (used ++ [rr.1, rr.2])
        | none => growNewGo segs lonely rest acc used
      | _, _ => .error .indexError

/-- How the Pair-Grower ended: lonely = ∅ (complete) or no new pair
added (stalled). -/
inductive GrowReason where
  | complete
  | stalled
deriving DecidableEq, Repr

/-- The Pair-Grower loop (source lines 310-352), with explicit fuel; none
models running out of fuel (shown below never to happen with fuel
segs.length + 1). -/
def growerAux (segs : List Seg) :
    ℕ → List (List ℕ) → Option (Except PyErr (List (List ℕ) × GrowReason))
  | 0, _ => none
  | fuel + 1, pairs =>
    let paired := pairs.flatten
    let ungrouped := (List.range segs.length).filter (fun i => i ∉ paired)
    match classifyLoop segs pairs ungrouped with
    | .error e => some (.error e)
    | .ok conn =>
      let lonely := ungrouped.filter (fun u => u ∉ conn)
      if lonely = [] then some (.ok (pairs, .complete))
      else
        match growNewGo segs lonely pairs [] [] with
        | .error e => some (.error e)
        | .ok newPairs =>
          if newPairs = [] then some (.ok (pairs, .stalled))
          else growerAux segs fuel (newPairs.foldl insertPair pairs)

/-- The Pair-Grower with the sufficient fuel bound. -/
def growerRun (segs : List Seg) (pairs : List (List ℕ)) :
    Option (Except PyErr (List (List ℕ) × GrowReason)) :=
  growerAux segs (segs.length + 1) pairs

/-- Build the mid-point skeleton line of each stripe pair (source lines
358-367): pick the endpoint pairing with the smaller summed distance and
take the two connector midpoints.  connector_lines is built but never
read afterwards, so it is not modelled.  Each pair is unpacked first, so
a singleton pair raises here. -/
def midLinesGo (segs : List Seg) : List (List ℕ) → Except PyErr (List (Pt × Pt))
  | [] => .ok []
  | p :: rest =>
    match unpackPair p with
    | .error e => .error e
    | .ok ab =>
      match segs.get? ab.1, segs.get? ab.2 with
      | some (A1, A2), some (B1, B2) =>
        let L1 := distQ A1 B1 + distQ A2 B2
        let L2 := distQ A1 B2 + distQ A2 B1
        let c := if L1 ≤ L2 then ((A1, B1), (A2, B2)) else ((A1, B2), (A2, B1))
        let m1 : Pt := ((c.1.1.1 + c.1.2.1) / 2, (c.1.1.2 + c.1.2.2) / 2)
        let m2 : Pt := ((c.2.1.1 + c.2.2.1) / 2, (c.2.1.2 + c.2.2.2) / 2)
        match midLinesGo segs rest with
        | .error e => .error e
        | .ok ms => .ok ((m1, m2) :: ms)
      | _, _ => .error .indexError

/-- np.median of a rational list: middle element (or mean of the two
middle elements) of the sorted list.  For the empty list numpy yields
nan without raising; the embedding returns 0 there — every consumer loop
is empty in that case, so the value is never compared. -/
def medianQ (l : List ℚ) : ℚ :=
  let s := sortLe (fun a b => decide (a ≤ b)) l
  let n := s.length
  if n = 0 then 0
  else if n % 2 = 1 then s.getD (n / 2) 0
  else (s.getD (n / 2 - 1) 0 + s.getD (n / 2) 0) / 2

/-- Skeleton cluster shift tolerance. -/
def SHIFT_TOL_RATIO : ℚ := 2 / 100

/-- perp_dist(P, A, v_hat): perpendicular distance of P from the line
through A with direction v_hat. -/
def perpDist (P A vhat : Pt) : ℚ := |cross2d (ptSub P A) vhat|

/-- Union-find lookup by parent chasing; the fuel (the array size) bounds
the chain length, and omitting path compression leaves every root
unchanged. -/
def ufFind (parent : List ℕ) : ℕ → ℕ → ℕ
  | 0, i => i
  | fuel + 1, i =>
    match parent.get? i with
    | none => i
    | some p => if p = i then i else ufFind parent fuel p

/-- union(i, j): graft j's root under i's root. -/
def ufUnion (parent : List ℕ) (i j : ℕ) : List ℕ :=
  let a := ufFind parent parent.length i
  let b := ufFind parent parent.length j
  if a ≠ b then parent.set b a else parent

/-- The pairwise alignment loop over raw midpoint segments (source lines
399-407): union i and j when their folded orientations differ by at most
ANG_TOL_ALIGN and the midpoint of i is within the shift tolerance of the
infinite line through j. -/
def clusterParent (mlines : List (Pt × Pt)) : List ℕ :=
  let n := mlines.length
  let mid := fun i => match mlines.get? i with
    | some pq => (((pq.1.1 + pq.2.1) / 2, (pq.1.2 + pq.2.2) / 2) : Pt)
    | none => (0, 0)
  let dir := fun i => match mlines.get? i with
    | some pq => unitQ (ptSub pq.2 pq.1)
    | none => (0, 0)
  let angDir := fun i => match mlines.get? i with
    | some pq => orientDir pq
    | none => ((1 : ℚ), (0 : ℚ))
  let len := fun i => match mlines.get? i with
    | some pq => normQ (ptSub pq.2 pq.1)
    | none => 0
  let start := fun i => match mlines.get? i with
    | some pq => pq.1
    | none => ((0 : ℚ), (0 : ℚ))
  (List.range n).foldl (fun par i =>
    (List.range n).foldl (fun par2 j =>
      if i < j then
        if withinAngTol SIN2_ANG_ALIGN (angDir i) (angDir j) then
          if perpDist (mid i) (start j) (dir j) ≤ SHIFT_TOL_RATIO * max (len i) (len j)
          then ufUnion par2 i j
          else par2
        else par2
      else par2) par)
    (List.range n)

/-- Clusters as a root-keyed association list in order of first
appearance, members in index order (defaultdict insertion order). -/
def clustersOf (parent : List ℕ) (n : ℕ) : List (ℕ × List ℕ) :=
  (List.range n).foldl (fun acc idx =>
    let r := ufFind parent parent.length idx
    if acc.any (fun e => e.1 = r) then
      acc.map (fun e => if e.1 = r then (e.1, e.2 ++ [idx]) else e)
    else acc ++ [(r, [idx])]) []

/-- Models np.linalg.svd's first right-singular vector of the mean-centred
endpoint matrix (an external numpy computation): the eigenvector of the
2×2 scatter matrix for its larger eigenvalue, with the rational
square-root stand-in.  No theorem below evaluates this on a multi-member
cluster. -/
def principalDir (pts : List Pt) (ctr : Pt) : Pt :=
  let a := (pts.map (fun p => (p.1 - ctr.1) ^ 2)).sum
  let b := (pts.map (fun p => (p.1 - ctr.1) * (p.2 - ctr.2))).sum
  let c := (pts.map (fun p => (p.2 - ctr.2) ^ 2)).sum
  if b = 0 then (if c ≤ a then (1, 0) else (0, 1))
  else
    let lam := ((a + c) + ratSqrt ((a - c) ^ 2 + 4 * b ^ 2)) / 2
    unitQ (b, lam - a)

/-- Axis of one cluster (source lines 413-427): singleton clusters take
their own unit direction anchored at their first endpoint; larger
clusters take the centroid and the principal direction.  The direction is
canonicalised to a non-negative x-component. -/
def clusterAxisOf (mlines : List (Pt × Pt)) (members : List ℕ) : Pt × Pt :=
  match members with
  | [m] =>
    match mlines.get? m with
    | some pq =>
      let av := unitQ (ptSub pq.2 pq.1)
      (pq.1, if av.1 < 0 then ptSmul (-1) av else av)
    | none => ((0, 0), (1, 0))
  | _ =>
    let pts := members.foldr (fun m acc =>
      match mlines.get? m with
      | some pq => pq.1 :: pq.2 :: acc
      | none => acc) []
    let k : ℚ := (pts.length : ℚ)
    let ctr : Pt :=
      if k = 0 then (0, 0)
      else ((pts.map (fun p => p.1)).sum / k, (pts.map (fun p => p.2)).sum / k)
    let av := principalDir pts ctr
    (ctr, if av.1 < 0 then ptSmul (-1) av else av)

/-- Axis lookup for a root (cluster_axis dict). -/
def axisByRoot (mlines : List (Pt × Pt)) (clusters : List (ℕ × List ℕ)) (r : ℕ) :
    Pt × Pt :=
  match clusters.find? (fun e => e.1 = r) with
  | some e => clusterAxisOf mlines e.2
  | none => ((0, 0), (1, 0))

/-- Projection of both endpoints of each raw midpoint segment onto its
cluster axis, reordered along the axis direction (source lines 429-436). -/
def alignedLinksOf (mlines : List (Pt × Pt)) (parent : List ℕ)
    (clusters : List (ℕ × List ℕ)) : List (Pt × Pt) :=
  mlines.enum.map (fun iq =>
    let ax := axisByRoot mlines clusters (ufFind parent parent.length iq.1)
    let anchor := ax.1
    let vhat := ax.2
    let pproj := ptAdd anchor (ptSmul (dot2d (ptSub iq.2.1 anchor) vhat) vhat)
    let qproj := ptAdd anchor (ptSmul (dot2d (ptSub iq.2.2 anchor) vhat) vhat)
    if dot2d (ptSub qproj pproj) vhat < 0 then (qproj, pproj) else (pproj, qproj))

/-- Endpoint closeness used by weld: hypot(pt − c) ≤ tol, encoded exactly
as 0 ≤ tol together with the squared comparison. -/
def closeTol (tol : ℚ) (p c : Pt) : Bool :=
  decide (0 ≤ tol) && decide (normSq (ptSub p c) ≤ tol ^ 2)

/-- canon(pt): first previously seen point within tol, else register pt. -/
def canonPt (uniques : List Pt) (tol : ℚ) (p : Pt) : Pt × List Pt :=
  match uniques.find? (fun c => closeTol tol p c) with
  | some c => (c, uniques)
  | none => (p, uniques ++ [p])

/-- The weld loop body, threading the uniques list. -/
def weldGo (tol : ℚ) : List (Pt × Pt) → List Pt → List (Pt × Pt) × List Pt
  | [], uniq => ([], uniq)
  | ab :: rest, uniq =>
    let ra := canonPt uniq tol ab.1
    let rb := canonPt ra.2 tol ab.2
    let rr := weldGo tol rest rb.2
    ((ra.1, rb.1) :: rr.1, rr.2)

/-- The source's weld(seglist, tol): snap each endpoint to the first
earlier endpoint within tol. -/
def weld (seglist : List (Pt × Pt)) (tol : ℚ) : List (Pt × Pt) :=
  (weldGo tol seglist []).1

/-- Greedy merge of sorted 1-D intervals with gap tolerance (source lines
471-479). -/
def mergeIntervals (tol : ℚ) : ℚ × ℚ → List (ℚ × ℚ) → List (ℚ × ℚ)
  | cur, [] => [cur]
  | cur, ab :: rest =>
    if ab.1 ≤ cur.2 + tol then mergeIntervals tol (cur.1, max cur.2 ab.2) rest
    else cur :: mergeIntervals tol ab rest

/-- Per-cluster interval union (source lines 458-483): project each
aligned member onto the cluster axis, sort, merge, and materialise the
merged intervals back to 2-D segments. -/
def unifiedLinksOf (mlines : List (Pt × Pt)) (clusters : List (ℕ × List ℕ))
    (aligned : List (Pt × Pt)) (tol : ℚ) : List (Pt × Pt) :=
  clusters.foldl (fun acc rc =>
    let ax := axisByRoot mlines clusters rc.1
    let anchor := ax.1
    let vhat := ax.2
    let intervals := rc.2.map (fun idx =>
      match aligned.get? idx with
      | some pq =>
        let s1 := dot2d (ptSub pq.1 anchor) vhat
        let s2 := dot2d (ptSub pq.2 anchor) vhat
        if s1 > s2 then (s2, s1) else (s1, s2)
      | none => ((0 : ℚ), (0 : ℚ)))
    let sorted := sortLe (fun a b => decide (a.1 ≤ b.1)) intervals
    let merged :=
      match sorted with
      | [] => []
      | iv :: rest => mergeIntervals tol iv rest
    acc ++ merged.map (fun ab =>
      (ptAdd anchor (ptSmul ab.1 vhat), ptAdd anchor (ptSmul ab.2 vhat))))
    []

/-- The full Skeletoniser (source lines 358-485): midpoint lines, axis
clustering, alignment, weld, per-axis interval union, final weld. -/
def skeletonLinks (segs : List Seg) (pairs : List (List ℕ)) :
    Except PyErr (List (Pt × Pt)) :=
  match midLinesGo segs pairs with
  | .error e => .error e
  | .ok mlines =>
    let med := medianQ (mlines.map (fun pq => distQ pq.1 pq.2))
    let tol := (5 / 1000) * med
    let parent := clusterParent mlines
    let clusters := clustersOf parent mlines.length
    let aligned := weld (alignedLinksOf mlines parent clusters) tol
    let unified := unifiedLinksOf mlines clusters aligned tol
    .ok (weld unified tol)

/-- A polygon as returned by the external polygoniser (shapely): its
exterior ring of vertices and its validity flag (is_valid). -/
structure Poly where
  ring : List Pt
  valid : Bool
deriving DecidableEq, Repr

/-- Twice the signed shoelace area of a closed ring. -/
def shoelace : List Pt → ℚ
  | [] => 0
  | p :: ps => go p (p :: ps)
where
  go (first : Pt) : List Pt → ℚ
    | [] => 0
    | [q] => cross2d q first
    | q :: r :: rest => cross2d q r + go first (r :: rest)

/-- The polygon area (shapely poly.area): half the absolute shoelace sum. -/
def polyArea (p : Poly) : ℚ := |shoelace p.ring| / 2

/-- Axis-aligned bounding box. -/
structure BBox where
  minx : ℚ
  miny : ℚ
  maxx : ℚ
  maxy : ℚ
deriving DecidableEq, Repr

/-- The polygon bounds (shapely poly.bounds): coordinatewise extremes of
the ring. -/
def polyBounds (p : Poly) : BBox :=
  match p.ring with
  | [] => ⟨0, 0, 0, 0⟩
  | q :: qs =>
    qs.foldl (fun b r =>
      ⟨min b.minx r.1, min b.miny r.2, max b.maxx r.1, max b.maxy r.2⟩)
      ⟨q.1, q.2, q.1, q.2⟩

/-- Area of the axis-aligned bounding box of a polygon. -/
def bboxArea (p : Poly) : ℚ :=
  ((polyBounds p).maxx - (polyBounds p).minx) *
    ((polyBounds p).maxy - (polyBounds p).miny)

/-- One emitted room: bbox = [x, y, width, height]. -/
structure Room where
  x : ℚ
  y : ℚ
  w : ℚ
  h : ℚ
deriving DecidableEq, Repr

/-- Minimum face area kept by the polygoniser stage. -/
def MIN_ROOM_AREA : ℚ := 1 / 1000

/-- The room emission loop (source lines 497-504): drop invalid or
too-small faces, emit the bounding box of each survivor. -/
def roomsFromPolys (polys : List Poly) : List Room :=
  polys.filterMap (fun p =>
    if ¬p.valid ∨ polyArea p < MIN_ROOM_AREA then none
    else
      let b := polyBounds p
      some ⟨b.minx, b.miny, b.maxx - b.minx, b.maxy - b.miny⟩)

/-- line_strings: unified links with coincident endpoints filtered out
(source line 495). -/
def lineStringsOf (links : List (Pt × Pt)) : List (Pt × Pt) :=
  links.filter (fun pq => pq.1 ≠ pq.2)

/-- The identify entry point (source lines 130-504).

Inputs mirroring the call environment: pz is the external
shapely.ops.polygonize; avail is whether the shapely import succeeds
(the source catches ImportError and OSError and returns the empty list);
doc is the ET.fromstring outcome (none = ParseError); s0 is the incoming
process-wide random state.  Result: the returned room list or the
escaping exception, paired with the outgoing random state.  The random
state is reset to RANDOM_SEED before any draw, exactly as random.seed(42)
does.  growerRun's fuel is sufficient (proved below), so the getD
default is dead code. -/
def identifyRun (pz : List (Pt × Pt) → List Poly) (avail : Bool)
    (doc : Option (List Element)) (s0 : ℕ) : Except PyErr (List Room) × ℕ :=
  match extractPolylines doc with
  | .error e => (.error e, s0)
  | .ok polys =>
    if polys = [] then (.ok [], s0)
    else
      let segs := flattenSegs polys
      let rs := randPointsFrom segs RANDOM_SEED
      let seeds := seedPairs segs rs.1
      match (growerRun segs seeds).getD (.error .valueError) with
      | .error e => (.error e, rs.2)
      | .ok pr =>
        match skeletonLinks segs pr.1 with
        | .error e => (.error e, rs.2)
        | .ok links =>
          if avail then (.ok (roomsFromPolys (pz (lineStringsOf links))), rs.2)
          else (.ok [], rs.2)

/-- Stage composition up to the grower: the stripe-pair set identify holds
when the Pair-Grower stops, for a parsed document. -/
def pipelinePairs (doc : List Element) : Except PyErr (List (List ℕ)) :=
  match extractLoop doc with
  | .error e => .error e
  | .ok polys =>
    let segs := flattenSegs polys
    let rs := randPointsFrom segs RANDOM_SEED
    match (growerRun segs (seedPairs segs rs.1)).getD (.error .valueError) with
    | .error e => .error e
    | .ok pr => .ok pr.1

/-- A thick two-point line element, as found in a flattened SVG plan. -/
def lineEl (x1 y1 x2 y2 : String) : Element :=
  ⟨"line", [("stroke-width", "2"), ("x1", x1), ("y1", y1), ("x2", x2), ("y2", y2)]⟩

/-- Three parallel horizontal walls one unit apart: the middle one is the
nearest normal hit of both outer ones, so the Pair-Seeder places segment
1 into two different stripe pairs. -/
def docThreeWalls : List Element :=
  [lineEl "0" "0" "10" "0", lineEl "0" "1" "10" "1", lineEl "0" "2" "10" "2"]

/-- A wall pair (segments 0, 1), two collinear vertical spurs (segments
2, 3) hanging from its left endpoints and meeting at (0, -50), and one
stray segment 4 out of (0, -50).  The seeder pairs the walls, the first
grower iteration pairs the spurs, and the second grower iteration finds
segment 4 adjacent (through the shared point) to both members of the
spur pair, picks r1 = r2 = 4, and adds the collapsed singleton pair. -/
def docSingleton : List Element :=
  [lineEl "0" "0" "10" "0", lineEl "0" "1" "10" "1",
   lineEl "0" "0" "0" "-50", lineEl "0" "1" "0" "-50", lineEl "0" "-50" "99" "-99"]

/-- docSingleton plus one isolated far-away segment that stays lonely, so
the grower iteration after the singleton pair is created reaches the
singleton while classifying connectors and raises ValueError inside the
loop. -/
def docSingletonCrash : List Element :=
  docSingleton ++ [lineEl "1000" "1000" "1001" "1001"]

/-- One thick line: one segment, no hits, no pairs, empty skeleton. -/
def docOneLine : List Element := [lineEl "0" "0" "9" "0"]

/-- A document whose root carries a style attribute with no stroke-width
property: float() is applied to the whole style text and raises. -/
def docBadStyle : List Element := [⟨"svg", [("style", "fill:red")]⟩]

/-- A thick polyline whose two points coincide: the flattener produces a
zero-length segment. -/
def docZeroLen : List Element :=
  [⟨"polyline", [("stroke-width", "2"), ("points", "0 0 0 0")]⟩]

/-- A square polygon of area 1 standing in for a polygonizer face. -/
def sqPoly : Poly := ⟨[(0, 0), (1, 0), (1, 1), (0, 1)], true⟩

set_option maxRecDepth 1000000

set_option maxHeartbeats 4000000

/-- Constructor case split for Except results, packaged as equations so
that match expressions over them can be reduced by rewriting. -/
theorem exceptCases {α β : Type} (x : Except α β) :
    (∃ e, x = .error e) ∨ (∃ b, x = .ok b) := by
  cases x with
  | error e => exact .inl ⟨e, rfl⟩
  | ok b => exact .inr ⟨b, rfl⟩

/-- Claim C3 (code bug): on docSingleton the stripe-pair set after the
Pair-Grower terminates contains the one-element pair of segment 4 — the
grower has no r1 ≠ r2 guard, so a lonely segment adjacent to both members
of a stripe pair through one shared endpoint is paired with itself and
frozenset collapses the pair to a singleton, breaking the two-distinct-
indices invariant (and crashing the later tuple unpacking). -/
theorem stripe_pair_singleton_eval :
    pipelinePairs docSingleton = .ok [[0, 1], [2, 3], [4]] ∧
      [4] ∈ [[0, 1], [2, 3], [4]] ∧ ([4] : List ℕ).length ≠ 2 := by
  with_unfolding_all decide

/-- Claim C4: identify returns the empty room list whenever the input
cannot be parsed as SVG (the ET.fromstring outcome is none, as for the
empty input string) or when extraction yields no thick polylines. -/
theorem empty_or_unparsed_gives_empty :
    (∀ pz avail s, (identifyRun pz avail none s).1 = .ok []) ∧
      (∀ pz avail doc s, extractLoop doc = .ok [] →
        (identifyRun pz avail (some doc) s).1 = .ok []) := by
  constructor
  · intro pz avail s
    rfl
  · intro pz avail doc s h
    simp only [identifyRun, extractPolylines, h]
    simp

/-- Witness for C4: the empty document extracts no polylines and identify
returns the empty room list on it. -/
theorem empty_or_unparsed_gives_empty_witness :
    (identifyRun (fun _ => [sqPoly]) true (some []) 3).1 = .ok [] :=
  empty_or_unparsed_gives_empty.2 (fun _ => [sqPoly]) true [] 3 rfl

/-- Claim C5 counterexample: the flattener emits the zero-length segment
of a degenerate thick polyline instead of dropping it, so a segment with
coincident endpoints does enter the Caster's segment list. -/
theorem flattener_keeps_zero_length :
    extractLoop docZeroLen = .ok [[(0, 0), (0, 0)]] ∧
      flattenSegs [[(0, 0), (0, 0)]] = [((0, 0), (0, 0))] ∧
      normSq (ptSub ((0 : ℚ), (0 : ℚ)) (0, 0)) = 0 := by
  with_unfolding_all decide

/-- Claim C6 counterexample: with three parallel walls the Pair-Seeder
puts segment 1 into the two distinct stripe pairs ⟨0,1⟩ and ⟨1,2⟩, and
the grower (which never removes pairs) terminates with both present — a
segment index can appear in two stripe pairs after G terminates. -/
theorem seeder_shares_segment_between_pairs :
    pipelinePairs docThreeWalls = .ok [[0, 1], [1, 2]] ∧
      (1 ∈ ([0, 1] : List ℕ) ∧ 1 ∈ ([1, 2] : List ℕ) ∧
        ([0, 1] : List ℕ) ≠ [1, 2]) := by
  with_unfolding_all decide

/-- Claim C8 counterexample: on docSingletonCrash the Pair-Grower loop
ends by raising ValueError (unpacking the singleton pair while
classifying connectors), not in the complete or stalled state. -/
theorem grower_raises_on_singleton_scan :
    pipelinePairs docSingletonCrash = .error .valueError := by
  with_unfolding_all decide

/-- Claim C9 counterexample: an element whose style attribute has no
stroke-width property makes float() raise, and identify propagates the
ValueError to its caller instead of returning a room list. -/
theorem identify_raises_on_bad_style :
    (identifyRun (fun _ => []) true (some docBadStyle) 5).1 = .error .valueError := by
  with_unfolding_all decide

/-- Claim C10: whenever a run with the polygonisation backend available
returns normally (so the input reaches the polygonisation stage, or
returned empty even earlier), the same run with the backend unavailable
returns the empty room list instead of crashing. -/
theorem polygoniser_unavailable_gives_empty :
    ∀ pz doc s0 rooms s1, identifyRun pz true doc s0 = (.ok rooms, s1) →
      identifyRun pz false doc s0 = (.ok [], s1) := by
  intro pz doc s0 rooms s1 h
  rcases exceptCases (extractPolylines doc) with ⟨e, hE⟩ | ⟨polys, hE⟩
  · simp [identifyRun, hE] at h
  · rcases eq_or_ne polys [] with hP | hP
    · subst hP
      simp [identifyRun, hE] at h ⊢
      exact h.2
    · rcases exceptCases ((growerRun (flattenSegs polys)
          (seedPairs (flattenSegs polys)
            (randPointsFrom (flattenSegs polys) RANDOM_SEED).1)).getD
          (.error .valueError)) with ⟨e, hG⟩ | ⟨pr, hG⟩
      · simp [identifyRun, hE, hP, hG] at h
      · rcases exceptCases (skeletonLinks (flattenSegs polys) pr.1) with
          ⟨e, hS⟩ | ⟨links, hS⟩
        · simp [identifyRun, hE, hP, hG, hS] at h
        · simp [identifyRun, hE, hP, hG, hS] at h ⊢
          exact h.2

/-- Witness for C10: one thick line reaches the polygonisation stage; with
the backend available the constant polygoniser yields one square room,
without it identify returns the empty list. -/
theorem polygoniser_unavailable_gives_empty_witness :
    identifyRun (fun _ => [sqPoly]) false (some docOneLine) 7 = (.ok [], 43) :=
  polygoniser_unavailable_gives_empty (fun _ => [sqPoly]) (some docOneLine) 7
    [⟨0, 0, 1, 1⟩] 43 (by with_unfolding_all rfl)

/-- The returned room list never depends on the incoming random state:
every run reseeds the stream with the constant 42 before drawing (or
returns before drawing at all). -/
theorem identifyRun_state_irrel (pz : List (Pt × Pt) → List Poly) (avail : Bool)
    (doc : Option (List Element)) (s s' : ℕ) :
    (identifyRun pz avail doc s).1 = (identifyRun pz avail doc s').1 := by
  rcases exceptCases (extractPolylines doc) with ⟨e, hE⟩ | ⟨polys, hE⟩
  · simp [identifyRun, hE]
  · rcases eq_or_ne polys [] with hP | hP
    · subst hP
      simp [identifyRun, hE]
    · rcases exceptCases ((growerRun (flattenSegs polys)
          (seedPairs (flattenSegs polys)
            (randPointsFrom (flattenSegs polys) RANDOM_SEED).1)).getD
          (.error .valueError)) with ⟨e, hG⟩ | ⟨pr, hG⟩
      · simp [identifyRun, hE, hP, hG]
      · rcases exceptCases (skeletonLinks (flattenSegs polys) pr.1) with
          ⟨e, hS⟩ | ⟨links, hS⟩
        · simp [identifyRun, hE, hP, hG, hS]
        · simp [identifyRun, hE, hP, hG, hS]

/-- Claim C1: two invocations of identify in the same process with
identical input produce identical room lists (the second run starts from
whatever random state the first run left behind). -/
theorem identify_deterministic_rerun (pz : List (Pt × Pt) → List Poly)
    (avail : Bool) (doc : Option (List Element)) (s0 : ℕ) :
    (identifyRun pz avail doc ((identifyRun pz avail doc s0).2)).1 =
      (identifyRun pz avail doc s0).1 :=
  identifyRun_state_irrel pz avail doc ((identifyRun pz avail doc s0).2) s0

/-- BBox extreme order is preserved along the bounds fold. -/
theorem foldBBox_le (l : List Pt) (b : BBox) (hx : b.minx ≤ b.maxx)
    (hy : b.miny ≤ b.maxy) :
    (l.foldl (fun b r =>
        BBox.mk (min b.minx r.1) (min b.miny r.2) (max b.maxx r.1)
          (max b.maxy r.2)) b).minx ≤
      (l.foldl (fun b r =>
        BBox.mk (min b.minx r.1) (min b.miny r.2) (max b.maxx r.1)
          (max b.maxy r.2)) b).maxx ∧
    (l.foldl (fun b r =>
        BBox.mk (min b.minx r.1) (min b.miny r.2) (max b.maxx r.1)
          (max b.maxy r.2)) b).miny ≤
      (l.foldl (fun b r =>
        BBox.mk (min b.minx r.1) (min b.miny r.2) (max b.maxx r.1)
          (max b.maxy r.2)) b).maxy := by
  induction l generalizing b with
  | nil => exact ⟨hx, hy⟩
  | cons p rest ih =>
    exact ih _ (le_trans (min_le_left _ _) (le_trans hx (le_max_left _ _)))
      (le_trans (min_le_left _ _) (le_trans hy (le_max_left _ _)))

/-- The bounding box of any polygon is well ordered on both axes. -/
theorem polyBounds_le (p : Poly) :
    (polyBounds p).minx ≤ (polyBounds p).maxx ∧
      (polyBounds p).miny ≤ (polyBounds p).maxy := by
  unfold polyBounds
  cases p.ring with
  | nil => exact ⟨le_refl 0, le_refl 0⟩
  | cons q qs => exact foldBBox_le qs _ (le_refl q.1) (le_refl q.2)

/-- Rooms surviving the polygoniser filter have positive extents and at
least the minimum area, provided every valid face fits inside its own
bounding box (the planar-geometry contract of the external library). -/
theorem roomsFromPolys_bounds (polys : List Poly)
    (hvalid : ∀ p ∈ polys, p.valid = true → polyArea p ≤ bboxArea p) :
    ∀ r ∈ roomsFromPolys polys,
      0 < r.w ∧ 0 < r.h ∧ MIN_ROOM_AREA ≤ r.w * r.h := by
  intro r hr
  rw [roomsFromPolys, List.mem_filterMap] at hr
  obtain ⟨p, hpmem, hf⟩ := hr
  by_cases hcond : ¬p.valid = true ∨ polyArea p < MIN_ROOM_AREA
  · rw [if_pos hcond] at hf
    exact absurd hf (by simp)
  · rw [if_neg hcond] at hf
    push_neg at hcond
    simp only [Option.some.injEq] at hf
    have hw0 : 0 ≤ (polyBounds p).maxx - (polyBounds p).minx :=
      sub_nonneg.mpr (polyBounds_le p).1
    have hh0 : 0 ≤ (polyBounds p).maxy - (polyBounds p).miny :=
      sub_nonneg.mpr (polyBounds_le p).2
    have hmin : MIN_ROOM_AREA ≤
        ((polyBounds p).maxx - (polyBounds p).minx) *
          ((polyBounds p).maxy - (polyBounds p).miny) :=
      le_trans hcond.2 (hvalid p hpmem hcond.1)
    have hpos : (0 : ℚ) <
        ((polyBounds p).maxx - (polyBounds p).minx) *
          ((polyBounds p).maxy - (polyBounds p).miny) :=
      lt_of_lt_of_le (by norm_num [MIN_ROOM_AREA]) hmin
    have hwpos : 0 < (polyBounds p).maxx - (polyBounds p).minx := by
      rcases lt_or_eq_of_le hw0 with h1 | h1
      · exact h1
      · rw [← h1, zero_mul] at hpos
        exact absurd hpos (lt_irrefl 0)
    have hhpos : 0 < (polyBounds p).maxy - (polyBounds p).miny := by
      rcases lt_or_eq_of_le hh0 with h1 | h1
      · exact h1
      · rw [← h1, mul_zero] at hpos
        exact absurd hpos (lt_irrefl 0)
    rw [← hf]
    exact ⟨hwpos, hhpos, hmin⟩

/-- Claim C2: every room identify emits has positive bounding-box width
and height and bounding-box area at least MIN_ROOM_AREA, given the
external polygoniser's contract that a valid face's area is bounded by
its own bounding-box area (a face lies inside its bounding box). -/
theorem rooms_satisfy_area_bounds (pz : List (Pt × Pt) → List Poly)
    (avail : Bool) (doc : Option (List Element)) (s0 : ℕ)
    (rooms : List Room) (s1 : ℕ)
    (hpz : ∀ ls, ∀ p ∈ pz ls, p.valid = true → polyArea p ≤ bboxArea p)
    (h : identifyRun pz avail doc s0 = (.ok rooms, s1)) :
    ∀ r ∈ rooms, 0 < r.w ∧ 0 < r.h ∧ MIN_ROOM_AREA ≤ r.w * r.h := by
  rcases exceptCases (extractPolylines doc) with ⟨e, hE⟩ | ⟨polys, hE⟩
  · simp [identifyRun, hE] at h
  · rcases eq_or_ne polys [] with hP | hP
    · subst hP
      simp [identifyRun, hE] at h
      obtain ⟨h1, h2⟩ := h
      subst h1
      intro r hr
      exact absurd hr (List.not_mem_nil r)
    · rcases exceptCases ((growerRun (flattenSegs polys)
          (seedPairs (flattenSegs polys)
            (randPointsFrom (flattenSegs polys) RANDOM_SEED).1)).getD
          (.error .valueError)) with ⟨e, hG⟩ | ⟨pr, hG⟩
      · simp [identifyRun, hE, hP, hG] at h
      · rcases exceptCases (skeletonLinks (flattenSegs polys) pr.1) with
          ⟨e, hS⟩ | ⟨links, hS⟩
        · simp [identifyRun, hE, hP, hG, hS] at h
        · cases avail with
          | false =>
            simp [identifyRun, hE, hP, hG, hS] at h
            obtain ⟨h1, h2⟩ := h
            subst h1
            intro r hr
            exact absurd hr (List.not_mem_nil r)
          | true =>
            simp [identifyRun, hE, hP, hG, hS] at h
            obtain ⟨h1, h2⟩ := h
            subst h1
            exact roomsFromPolys_bounds _ (hpz (lineStringsOf links))

/-- A ray with the zero direction vector intersects nothing (the
denominator is zero and falls under the EPS guard). -/
theorem intersect_zero_dir (P Q1 Q2 : Pt) :
    intersectRaySeg P (0, 0) Q1 Q2 = none := by
  rw [intersectRaySeg]
  rw [if_pos]
  show |cross2d (0, 0) (ptSub Q2 Q1)| < EPS
  simp [cross2d, ptSub]
  norm_num [EPS]

/-- A fold whose step function ignores its input returns its seed. -/
theorem foldl_const {α β : Type} (f : β → α → β) (hf : ∀ b a, f b a = b) :
    ∀ (l : List α) (init : β), l.foldl f init = init := by
  intro l
  induction l with
  | nil => intro init; rfl
  | cons a rest ih =>
    intro init
    rw [List.foldl_cons, hf]
    exact ih init

/-- A zero-length segment acquires no caster hit: both its scaled normals
are the zero vector, so every ray-segment test returns none. -/
theorem bestHit_zero_len (segs : List Seg) (idx : ℕ) (a b : ℚ) (P0 : Pt)
    (hseg : segs.get? idx = some ((a, b), (a, b))) :
    bestHitFor segs idx P0 = none := by
  rw [bestHitFor, hseg]
  simp only [sub_self, neg_zero, zero_div]
  have hstep : ∀ (bb : Option (ℚ × Pt)) (jq : ℕ × Seg),
      (if jq.1 = idx then bb
       else betterHit bb (intersectRaySeg P0 (0, 0) jq.2.1 jq.2.2)) = bb := by
    intro bb jq
    by_cases hj : jq.1 = idx
    · rw [if_pos hj]
    · rw [if_neg hj, intersect_zero_dir]
      rfl
  rw [foldl_const _ hstep, foldl_const _ hstep]
  rfl

/-- Claim C5 (amended): the flattener does not drop zero-length pairs —
they enter the Caster's segment list — but a zero-length segment never
obtains a caster hit of its own (its scaled normals are zero vectors),
so its index never appears as a key of pairs_dict.  No stronger absence
holds: the Pair-Grower can still absorb a degenerate segment later
through endpoint adjacency. -/
theorem zero_length_segment_never_paired (segs : List Seg) (rpts : List Pt)
    (idx : ℕ) (a b : ℚ) (hseg : segs.get? idx = some ((a, b), (a, b))) :
    ∀ ip ∈ pairsDictOf segs rpts, ip.1 ≠ idx := by
  intro ip hip
  rw [pairsDictOf, List.mem_filterMap] at hip
  obtain ⟨jq, _hjq, hf⟩ := hip
  intro hidx
  generalize hP0 : rpts.get? jq.1 = o at hf
  cases o with
  | none => simp at hf
  | some P0 =>
    simp only [Option.map_eq_some'] at hf
    obtain ⟨p, hB, hfe⟩ := hf
    have hj : jq.1 = idx := by
      rw [← hfe] at hidx
      exact hidx
    rw [hj, bestHit_zero_len segs idx a b P0 hseg] at hB
    exact absurd hB (by simp)

/-- Witness for the amended C5: the zero-length segment extracted from
docZeroLen is index 0 of the caster input and pairs_dict is empty. -/
theorem zero_length_segment_never_paired_witness :
    (pairsDictOf (flattenSegs [[(0, 0), (0, 0)]])
        (randPointsFrom (flattenSegs [[(0, 0), (0, 0)]]) RANDOM_SEED).1).all
      (fun ip => decide (ip.1 ≠ 0)) = true :=
  List.all_eq_true.mpr (fun ip hip => decide_eq_true
    (zero_length_segment_never_paired
      (flattenSegs [[(0, 0), (0, 0)]])
      (randPointsFrom (flattenSegs [[(0, 0), (0, 0)]]) RANDOM_SEED).1
      0 0 0 (by with_unfolding_all rfl) ip hip))

/-- mapFloats succeeds when every token parses. -/
theorem mapFloats_ok (l : List String)
    (h : l.all (fun t => (pyFloat t).isSome) = true) :
    ∃ qs, mapFloats l = .ok qs := by
  induction l with
  | nil => exact ⟨[], rfl⟩
  | cons s rest ih =>
    rw [List.all_cons, Bool.and_eq_true] at h
    obtain ⟨h1, h2⟩ := h
    rw [Option.isSome_iff_exists] at h1
    obtain ⟨q, hq⟩ := h1
    obtain ⟨qs, hqs⟩ := ih h2
    exact ⟨q :: qs, by simp [mapFloats, hq, hqs]⟩

/-- mapFloatPairs succeeds when both components of every match parse. -/
theorem mapFloatPairs_ok (l : List (String × String))
    (h : l.all (fun ab => (pyFloat ab.1).isSome && (pyFloat ab.2).isSome) = true) :
    ∃ ps, mapFloatPairs l = .ok ps := by
  induction l with
  | nil => exact ⟨[], rfl⟩
  | cons ab rest ih =>
    rw [List.all_cons, Bool.and_eq_true] at h
    obtain ⟨hab, hrest⟩ := h
    rw [Bool.and_eq_true, Option.isSome_iff_exists, Option.isSome_iff_exists] at hab
    obtain ⟨⟨x, hx⟩, y, hy⟩ := hab
    obtain ⟨ps, hps⟩ := ih hrest
    exact ⟨(x, y) :: ps, by simp [mapFloatPairs, hx, hy, hps]⟩

/-- strokeWidth succeeds when the stroke text is empty or parses. -/
theorem strokeWidth_ok (el : Element)
    (h : (decide (strokeValText el = "") ||
        (pyFloat (strokeValText el)).isSome) = true) :
    ∃ q, strokeWidth el = .ok q := by
  rw [Bool.or_eq_true, decide_eq_true_eq] at h
  rw [strokeWidth]
  rcases eq_or_ne (strokeValText el) "" with he | he
  · rw [if_pos he]
    exact ⟨1, rfl⟩
  · rw [if_neg he]
    rcases h with h | h
    · exact absurd h he
    · rw [Option.isSome_iff_exists] at h
      obtain ⟨q, hq⟩ := h
      rw [hq]
      exact ⟨q, rfl⟩

/-- One element never raises in the loop body when its numeric texts all
parse. -/
theorem extractElem_ok (el : Element) (h : elemParses el = true) :
    ∃ ps, extractElem el = .ok ps := by
  simp only [elemParses, Bool.and_eq_true] at h
  obtain ⟨hA, hB⟩ := h
  obtain ⟨q, hq⟩ := strokeWidth_ok el hA
  by_cases hlt : q < 3 / 2
  · exact ⟨[], by simp [extractElem, hq, if_pos hlt]⟩
  by_cases h1 : stripNs el.tag = "polyline"
  · by_cases hraw : (tokensOf ((attrGet el "points").getD "")).length < 4
    · exact ⟨[], by simp [extractElem, hq, hlt, h1, hraw]⟩
    · have hc : (decide (stripNs el.tag = "polyline") ||
          decide (stripNs el.tag = "polygon")) = true := by simp [h1]
      rw [if_pos hc, Bool.or_eq_true] at hB
      obtain ⟨qs, hqs⟩ := mapFloats_ok _ (by
        rcases hB with hl | hl
        · exact absurd (of_decide_eq_true hl) hraw
        · exact hl)
      exact ⟨[pairUp qs], by simp [extractElem, hq, hlt, h1, hraw, hqs]⟩
  by_cases h2 : stripNs el.tag = "polygon"
  · by_cases hraw : (tokensOf ((attrGet el "points").getD "")).length < 4
    · exact ⟨[], by simp [extractElem, hq, hlt, h1, h2, hraw]⟩
    · have hc : (decide (stripNs el.tag = "polyline") ||
          decide (stripNs el.tag = "polygon")) = true := by simp [h2]
      rw [if_pos hc, Bool.or_eq_true] at hB
      obtain ⟨qs, hqs⟩ := mapFloats_ok _ (by
        rcases hB with hl | hl
        · exact absurd (of_decide_eq_true hl) hraw
        · exact hl)
      exact ⟨[pairUp qs], by simp [extractElem, hq, hlt, h1, h2, hraw, hqs]⟩
  by_cases h3 : stripNs el.tag = "line"
  · simp only [extractElem, hq, hlt, h1, h2, h3]
    simp only [decide_eq_true_eq, String.reduceEq, Bool.or_self, Bool.false_eq_true,
      if_false, if_true, ite_false, ite_true]
    generalize attrGet el "x1" = oa
    generalize attrGet el "y1" = ob
    generalize attrGet el "x2" = oc
    generalize attrGet el "y2" = od
    rcases oa with _ | a
    · simp
    rcases ob with _ | b
    · simp
    rcases oc with _ | c
    · simp
    rcases od with _ | d
    · simp
    dsimp only
    generalize pyFloat a = ox
    generalize pyFloat b = oy
    generalize pyFloat c = oz
    generalize pyFloat d = ow
    rcases ox with _ | x <;> rcases oy with _ | y <;> rcases oz with _ | z <;>
      rcases ow with _ | w <;> simp
  by_cases h4 : stripNs el.tag = "path"
  · have hc : ¬(decide (stripNs el.tag = "polyline") ||
        decide (stripNs el.tag = "polygon")) = true := by simp [h1, h2]
    rw [if_neg hc, if_pos h4] at hB
    by_cases hd : (attrGet el "d").getD "" = ""
    · exact ⟨[], by simp [extractElem, hq, hlt, h1, h2, h3, h4, hd]⟩
    · by_cases hm : (reFindPairs ((attrGet el "d").getD "")).length < 2
      · exact ⟨[], by simp [extractElem, hq, hlt, h1, h2, h3, h4, hd, hm]⟩
      · rw [Bool.or_eq_true, Bool.or_eq_true] at hB
        obtain ⟨ps, hps⟩ := mapFloatPairs_ok _ (by
          rcases hB with (hl | hl) | hl
          · exact absurd (of_decide_eq_true hl) hd
          · exact absurd (of_decide_eq_true hl) hm
          · exact hl)
        by_cases hlen : 2 ≤ ps.length
        · exact ⟨[ps],
            by simp [extractElem, hq, hlt, h1, h2, h3, h4, hd, hm, hps, hlen]⟩
        · exact ⟨[],
            by simp [extractElem, hq, hlt, h1, h2, h3, h4, hd, hm, hps, hlen]⟩
  · exact ⟨[], by simp [extractElem, hq, hlt, h1, h2, h3, h4]⟩

/-- Claim C9 (amended): extraction never raises on a document whose
numeric attribute texts all parse as floats; malformed XML (parse outcome
none) and empty extractions are handled locally, but an unparseable
stroke-width or coordinate text raises ValueError to the caller. -/
theorem extraction_ok_when_numeric_attrs_parse (doc : List Element)
    (h : ∀ el ∈ doc, elemParses el = true) :
    ∃ ps, extractLoop doc = .ok ps := by
  induction doc with
  | nil => exact ⟨[], rfl⟩
  | cons el rest ih =>
    obtain ⟨ps, hps⟩ := extractElem_ok el (h el (List.mem_cons_self el rest))
    obtain ⟨rs, hrs⟩ := ih (fun e he => h e (List.mem_cons_of_mem el he))
    exact ⟨ps ++ rs, by simp [extractLoop, hps, hrs]⟩

/-- Witness for the amended C9: every numeric text of docOneLine parses
and its extraction succeeds. -/
theorem extraction_ok_when_numeric_attrs_parse_witness :
    ∃ ps, extractLoop docOneLine = .ok ps :=
  extraction_ok_when_numeric_attrs_parse docOneLine
    (by with_unfolding_all decide)

/-- Membership through stable insertion. -/
theorem mem_insertSorted {α : Type} (le : α → α → Bool) (a x : α) :
    ∀ l : List α, x ∈ insertSorted le a l ↔ x = a ∨ x ∈ l := by
  intro l
  induction l with
  | nil => simp [insertSorted]
  | cons b bs ih =>
    rw [insertSorted]
    by_cases hle : le b a = true
    · rw [if_pos hle]
      simp only [List.mem_cons, ih]
      tauto
    · rw [if_neg hle]
      simp only [List.mem_cons]

/-- Membership through the stable sort. -/
theorem mem_sortLe {α : Type} (le : α → α → Bool) (x : α) :
    ∀ (l acc : List α), x ∈ l.foldl (fun acc a => insertSorted le a acc) acc ↔
      x ∈ acc ∨ x ∈ l := by
  intro l
  induction l with
  | nil => simp
  | cons a as ih =>
    intro acc
    rw [List.foldl_cons, ih, mem_insertSorted]
    simp only [List.mem_cons]
    tauto

/-- Duplicate removal only removes. -/
theorem mem_dedupGo {α : Type} [DecidableEq α] (x : α) :
    ∀ (l seen : List α), x ∈ dedupGo l seen → x ∈ l := by
  intro l
  induction l with
  | nil => intro seen h; exact absurd h (List.not_mem_nil x)
  | cons a as ih =>
    intro seen h
    rw [dedupGo] at h
    by_cases hm : a ∈ seen
    · rw [if_pos hm] at h
      exact List.mem_cons_of_mem a (ih seen h)
    · rw [if_neg hm] at h
      rcases List.mem_cons.mp h with he | ht
      · exact he ▸ List.mem_cons_self a as
      · exact List.mem_cons_of_mem a (ih (a :: seen) ht)

/-- reds_adjacent_to only returns lonely segments. -/
theorem redsAdj_subset_lonely (segs : List Seg) (sg : Seg) (lonely : List ℕ)
    (j : ℕ) (h : j ∈ redsAdjacentTo segs sg lonely) : j ∈ lonely := by
  rw [redsAdjacentTo, sortLe] at h
  rcases (mem_sortLe _ _ _ _).mp h with h0 | h0
  · exact absurd h0 (List.not_mem_nil j)
  · rcases List.mem_append.mp (mem_dedupGo _ _ _ h0) with hx | hx
    · exact of_decide_eq_true (List.mem_filter.mp hx).2
    · exact of_decide_eq_true (List.mem_filter.mp hx).2

/-- The inner parallel search returns a member of its candidate list. -/
theorem parallelCand_mem (segs : List Seg) (r1 r2 : ℕ) :
    ∀ l, parallelCand segs r1 l = some r2 → r2 ∈ l := by
  intro l
  induction l with
  | nil => intro h; exact absurd h (by simp [parallelCand])
  | cons c cs ih =>
    intro h
    rw [parallelCand] at h
    by_cases hp : isParallelIdx segs r1 c = true
    · rw [if_pos hp] at h
      have hc := Option.some.inj h
      subst hc
      exact List.mem_cons_self c cs
    · rw [if_neg hp] at h
      exact List.mem_cons_of_mem c (ih h)

/-- The grow-pair search returns members of both candidate lists. -/
theorem findGrowPair_mem (segs : List Seg) (candB : List ℕ) (r1 r2 : ℕ) :
    ∀ candA, findGrowPair segs candB candA = some (r1, r2) →
      r1 ∈ candA ∧ r2 ∈ candB := by
  intro candA
  induction candA with
  | nil => intro h; exact absurd h (by simp [findGrowPair])
  | cons c cs ih =>
    intro h
    rw [findGrowPair] at h
    rcases hp : parallelCand segs c candB with _ | r
    · rw [hp] at h
      exact ⟨List.mem_cons_of_mem c (ih h).1, (ih h).2⟩
    · rw [hp] at h
      have hcr := Option.some.inj h
      have h1 : c = r1 := congrArg Prod.fst hcr
      have h2 : r = r2 := congrArg Prod.snd hcr
      subst h1
      subst h2
      exact ⟨List.mem_cons_self c cs, parallelCand_mem segs c r candB hp⟩

/-- Membership in set insertion. -/
theorem mem_insertPair (ps : List (List ℕ)) (p q : List ℕ) :
    q ∈ insertPair ps p ↔ q ∈ ps ∨ q = p := by
  rw [insertPair]
  by_cases hm : p ∈ ps
  · rw [if_pos hm]
    constructor
    · exact fun h => Or.inl h
    · intro h
      rcases h with h | h
      · exact h
      · exact h ▸ hm
  · rw [if_neg hm]
    simp

/-- Both elements of a collapsed frozenset pair. -/
theorem mem_mkPair (a b x : ℕ) : x ∈ mkPair a b ↔ x = a ∨ x = b := by
  rw [mkPair]
  by_cases hab : a = b
  · rw [if_pos hab]
    subst hab
    simp
  · rw [if_neg hab]
    by_cases hlt : a < b
    · rw [if_pos hlt]
      simp
    · rw [if_neg hlt]
      simp
      tauto

/-- Unfolded step equation of the growth sweep. -/
theorem growNewGo_cons (segs : List Seg) (lonely : List ℕ) (pr : List ℕ)
    (rest acc : List (List ℕ)) (used : List ℕ) :
    growNewGo segs lonely (pr :: rest) acc used =
      match unpackPair pr with
      | .error e => .error e
      | .ok ab =>
        match segs.get? ab.1, segs.get? ab.2 with
        | some sa, some sb =>
          (match findGrowPair segs
              ((redsAdjacentTo segs sb lonely).filter (fun r => r ∉ used))
              ((redsAdjacentTo segs sa lonely).filter (fun r => r ∉ used)) with
          | some rr =>
            growNewGo segs lonely rest (insertPair acc (mkPair rr.1 rr.2))
              (used ++ [rr.1, rr.2])
          | none => growNewGo segs lonely rest acc used)
        | _, _ => .error .indexError := rfl

/-- Every pair returned by the growth sweep is inherited from the
accumulator or built from two lonely candidate segments. -/
theorem growNewGo_mem (segs : List Seg) (lonely : List ℕ) :
    ∀ (rest acc : List (List ℕ)) (used : List ℕ) (res : List (List ℕ)),
      growNewGo segs lonely rest acc used = .ok res →
      ∀ p ∈ res, p ∈ acc ∨
        ∃ r1 r2, p = mkPair r1 r2 ∧ r1 ∈ lonely ∧ r2 ∈ lonely := by
  intro rest
  induction rest with
  | nil =>
    intro acc used res h p hp
    rw [growNewGo] at h
    exact Or.inl ((Except.ok.inj h).symm ▸ hp)
  | cons pr rest ih =>
    intro acc used res h p hp
    simp only [growNewGo] at h
    generalize hu : unpackPair pr = u at h
    cases u with
    | error e => simp at h
    | ok ab =>
      dsimp only at h
      generalize hga : segs.get? ab.1 = oa at h
      cases oa with
      | none => simp at h
      | some sa =>
        generalize hgb : segs.get? ab.2 = ob at h
        cases ob with
        | none => simp at h
        | some sb =>
          dsimp only at h
          generalize hf : findGrowPair segs
              ((redsAdjacentTo segs sb lonely).filter (fun r => r ∉ used))
              ((redsAdjacentTo segs sa lonely).filter (fun r => r ∉ used)) = fr at h
          cases fr with
          | none => exact ih acc used res h p hp
          | some rr =>
            rcases ih _ _ res h p hp with hin | hnew
            · rcases (mem_insertPair acc (mkPair rr.1 rr.2) p).mp hin with hold | hnewp
              · exact Or.inl hold
              · refine Or.inr ⟨rr.1, rr.2, hnewp, ?_, ?_⟩
                · have hm := (findGrowPair_mem segs _ rr.1 rr.2 _ hf).1
                  exact redsAdj_subset_lonely segs sa lonely rr.1
                    (List.mem_filter.mp hm).1
                · have hm := (findGrowPair_mem segs _ rr.1 rr.2 _ hf).2
                  exact redsAdj_subset_lonely segs sb lonely rr.2
                    (List.mem_filter.mp hm).1
            · exact Or.inr hnew

/-- Pairs already present survive the set-union fold. -/
theorem foldl_insertPair_mem_left :
    ∀ (l pairs : List (List ℕ)) (p : List ℕ), p ∈ pairs →
      p ∈ l.foldl insertPair pairs := by
  intro l
  induction l with
  | nil => intro pairs p hp; exact hp
  | cons q rest ih =>
    intro pairs p hp
    exact ih (insertPair pairs q) p ((mem_insertPair pairs q p).mpr (Or.inl hp))

/-- New pairs are present after the set-union fold. -/
theorem foldl_insertPair_mem_new :
    ∀ (l pairs : List (List ℕ)) (p : List ℕ), p ∈ l →
      p ∈ l.foldl insertPair pairs := by
  intro l
  induction l with
  | nil => intro pairs p hp; exact absurd hp (List.not_mem_nil p)
  | cons q rest ih =>
    intro pairs p hp
    rcases List.mem_cons.mp hp with he | ht
    · subst he
      exact foldl_insertPair_mem_left rest _ p
        ((mem_insertPair pairs p p).mpr (Or.inr rfl))
    · exact ih (insertPair pairs q) p ht

/-- The set-union fold appends a sublist of its new pairs. -/
theorem foldl_insertPair_structure :
    ∀ (l pairs : List (List ℕ)),
      ∃ added, l.foldl insertPair pairs = pairs ++ added ∧ added.Sublist l := by
  intro l
  induction l with
  | nil => intro pairs; exact ⟨[], by simp, List.nil_sublist []⟩
  | cons q rest ih =>
    intro pairs
    by_cases hq : q ∈ pairs
    · obtain ⟨added, h1, h2⟩ := ih pairs
      refine ⟨added, ?_, List.Sublist.cons q h2⟩
      rw [List.foldl_cons]
      rw [show insertPair pairs q = pairs from by rw [insertPair, if_pos hq]]
      exact h1
    · obtain ⟨added, h1, h2⟩ := ih (pairs ++ [q])
      refine ⟨q :: added, ?_, List.Sublist.cons₂ q h2⟩
      rw [List.foldl_cons]
      rw [show insertPair pairs q = pairs ++ [q] from by rw [insertPair, if_neg hq]]
      rw [h1, List.append_assoc]
      rfl

/-- Filtering with a pointwise-stronger predicate keeps at most as many
elements. -/
theorem filter_length_le {α : Type} (p q : α → Bool) :
    ∀ l : List α, (∀ x ∈ l, q x = true → p x = true) →
      (l.filter q).length ≤ (l.filter p).length := by
  intro l
  induction l with
  | nil => intro _; exact le_refl 0
  | cons a t ih =>
    intro himp
    have himpt : ∀ x ∈ t, q x = true → p x = true := fun x hx =>
      himp x (List.mem_cons_of_mem a hx)
    by_cases hqa : q a = true
    · have hpa := himp a (List.mem_cons_self a t) hqa
      rw [List.filter_cons, if_pos hqa, List.filter_cons, if_pos hpa]
      exact Nat.succ_le_succ (ih himpt)
    · rw [List.filter_cons, if_neg hqa, List.filter_cons]
      by_cases hpa : p a = true
      · rw [if_pos hpa]
        exact Nat.le_succ_of_le (ih himpt)
      · rw [if_neg hpa]
        exact ih himpt

/-- Filtering with a strictly-stronger predicate (witnessed by one kept
then dropped element) keeps strictly fewer elements. -/
theorem filter_length_lt {α : Type} (p q : α → Bool) :
    ∀ l : List α, (∀ x ∈ l, q x = true → p x = true) →
      ∀ x ∈ l, p x = true → q x = false →
        (l.filter q).length < (l.filter p).length := by
  intro l
  induction l with
  | nil => intro _ x hx; exact absurd hx (List.not_mem_nil x)
  | cons a t ih =>
    intro himp x hx hpx hqx
    have himpt : ∀ y ∈ t, q y = true → p y = true := fun y hy =>
      himp y (List.mem_cons_of_mem a hy)
    rcases List.mem_cons.mp hx with he | ht
    · subst he
      rw [List.filter_cons, if_neg (by rw [hqx]; exact Bool.false_ne_true),
        List.filter_cons, if_pos hpx]
      exact Nat.lt_succ_of_le (filter_length_le p q t himpt)
    · by_cases hqa : q a = true
      · have hpa := himp a (List.mem_cons_self a t) hqa
        rw [List.filter_cons, if_pos hqa, List.filter_cons, if_pos hpa]
        exact Nat.succ_lt_succ (ih himpt x ht hpx hqx)
      · rw [List.filter_cons, if_neg hqa, List.filter_cons]
        by_cases hpa : p a = true
        · rw [if_pos hpa]
          exact Nat.lt_succ_of_lt (ih himpt x ht hpx hqx)
        · rw [if_neg hpa]
          exact ih himpt x ht hpx hqx

/-- Within one growth sweep the used list keeps each newly added pair
disjoint from every pair already accumulated. -/
theorem growNewGo_disjoint (segs : List Seg) (lonely : List ℕ) :
    ∀ (rest acc : List (List ℕ)) (used : List ℕ) (res : List (List ℕ)),
      growNewGo segs lonely rest acc used = .ok res →
      acc.Pairwise (fun p q => ∀ i ∈ p, i ∉ q) →
      (∀ p ∈ acc, ∀ i ∈ p, i ∈ used) →
      res.Pairwise (fun p q => ∀ i ∈ p, i ∉ q) := by
  intro rest
  induction rest with
  | nil =>
    intro acc used res h hpw _
    rw [growNewGo] at h
    exact (Except.ok.inj h) ▸ hpw
  | cons pr rest ih =>
    intro acc used res h hpw hused
    simp only [growNewGo] at h
    generalize hu : unpackPair pr = u at h
    cases u with
    | error e => simp at h
    | ok ab =>
      dsimp only at h
      generalize hga : segs.get? ab.1 = oa at h
      cases oa with
      | none => simp at h
      | some sa =>
        generalize hgb : segs.get? ab.2 = ob at h
        cases ob with
        | none => simp at h
        | some sb =>
          dsimp only at h
          generalize hf : findGrowPair segs
              ((redsAdjacentTo segs sb lonely).filter (fun r => r ∉ used))
              ((redsAdjacentTo segs sa lonely).filter (fun r => r ∉ used)) = fr at h
          cases fr with
          | none => exact ih acc used res h hpw hused
          | some rr =>
            have hm := findGrowPair_mem segs _ rr.1 rr.2 _ hf
            have hr1nu : rr.1 ∉ used :=
              of_decide_eq_true (List.mem_filter.mp hm.1).2
            have hr2nu : rr.2 ∉ used :=
              of_decide_eq_true (List.mem_filter.mp hm.2).2
            refine ih _ _ res h ?_ ?_
            · rw [insertPair]
              by_cases hmem : mkPair rr.1 rr.2 ∈ acc
              · rw [if_pos hmem]; exact hpw
              · rw [if_neg hmem]
                rw [List.pairwise_append]
                refine ⟨hpw, List.pairwise_singleton _ _, ?_⟩
                intro p hp q hq i hip
                rw [List.mem_singleton] at hq
                subst hq
                intro hiq
                rcases (mem_mkPair rr.1 rr.2 i).mp hiq with he | he
                · exact hr1nu (he ▸ hused p hp i hip)
                · exact hr2nu (he ▸ hused p hp i hip)
            · intro p hp i hip
              rcases (mem_insertPair acc (mkPair rr.1 rr.2) p).mp hp with hold | hnew
              · exact List.mem_append_left _ (hused p hold i hip)
              · subst hnew
                rcases (mem_mkPair rr.1 rr.2 i).mp hip with he | he
                · exact List.mem_append_right _ (by simp [he])
                · exact List.mem_append_right _ (by simp [he])

/-- Claim C6 (amended): the stripe pairs added by one growth sweep of the
Pair-Grower are pairwise disjoint — within the sweep's additions every
segment index appears in at most one new pair — and every index of a new
pair is a lonely segment (neither already paired nor a connector); the
at-most-one-pair property does not extend to the seeded pairs, which can
already share an index. -/
theorem grower_added_pairs_disjoint (segs : List Seg) (lonely : List ℕ)
    (pairs newPairs : List (List ℕ))
    (hg : growNewGo segs lonely pairs [] [] = .ok newPairs) :
    newPairs.Pairwise (fun p q => ∀ i ∈ p, i ∉ q) ∧
      ∀ p ∈ newPairs, ∀ i ∈ p, i ∈ lonely := by
  constructor
  · exact growNewGo_disjoint segs lonely pairs [] [] newPairs hg
      List.Pairwise.nil (fun p hp => absurd hp (List.not_mem_nil p))
  · intro p hp i hip
    rcases growNewGo_mem segs lonely pairs [] [] newPairs hg p hp with
      hin | ⟨r1, r2, hpe, hr1, hr2⟩
    · exact absurd hin (List.not_mem_nil p)
    · rcases (mem_mkPair r1 r2 i).mp (hpe ▸ hip) with he | he
      · exact he ▸ hr1
      · exact he ▸ hr2

/-- Witness for C6 (amended): one grower sweep on the five walls of the
singleton demo, seeded with the pair of segments 0 and 1 and lonely
segments 2, 3, 4, adds exactly the pair of segments 2 and 3, which is
trivially pairwise disjoint and drawn from the lonely list. -/
theorem grower_added_pairs_disjoint_witness :
    ([[2, 3]] : List (List ℕ)).Pairwise (fun p q => ∀ i ∈ p, i ∉ q) ∧
      ∀ p ∈ ([[2, 3]] : List (List ℕ)), ∀ i ∈ p, i ∈ ([2, 3, 4] : List ℕ) :=
  grower_added_pairs_disjoint
    [((0, 0), (10, 0)), ((0, 1), (10, 1)), ((0, 0), (0, -50)),
      ((0, 1), (0, -50)), ((0, -50), (99, -99))]
    [2, 3, 4] [[0, 1]] [[2, 3]]
    (by with_unfolding_all rfl)

/-- Unfolded step equation of the grower loop at positive fuel. -/
theorem growerAux_succ (segs : List Seg) (fuel : ℕ) (pairs : List (List ℕ)) :
    growerAux segs (fuel + 1) pairs =
      (match classifyLoop segs pairs
          ((List.range segs.length).filter (fun i => i ∉ pairs.flatten)) with
      | .error e => some (.error e)
      | .ok conn =>
        if ((List.range segs.length).filter (fun i => i ∉ pairs.flatten)).filter
            (fun u => u ∉ conn) = [] then some (.ok (pairs, .complete))
        else
          match growNewGo segs
              (((List.range segs.length).filter (fun i => i ∉ pairs.flatten)).filter
                (fun u => u ∉ conn)) pairs [] [] with
          | .error e => some (.error e)
          | .ok newPairs =>
            if newPairs = [] then some (.ok (pairs, .stalled))
            else growerAux segs fuel (newPairs.foldl insertPair pairs)) := rfl

/-- A non-empty growth sweep strictly shrinks the set of unpaired
segment indices. -/
theorem grower_measure_lt (segs : List Seg) (lonely : List ℕ)
    (pairs newPairs : List (List ℕ))
    (hsub : ∀ r ∈ lonely,
      r ∈ (List.range segs.length).filter (fun i => i ∉ pairs.flatten))
    (hg : growNewGo segs lonely pairs [] [] = .ok newPairs)
    (hne : newPairs ≠ []) :
    ((List.range segs.length).filter
        (fun i => i ∉ (newPairs.foldl insertPair pairs).flatten)).length <
      ((List.range segs.length).filter (fun i => i ∉ pairs.flatten)).length := by
  obtain ⟨p, hp⟩ := List.exists_mem_of_ne_nil newPairs hne
  rcases growNewGo_mem segs lonely pairs [] [] newPairs hg p hp with
    hin | ⟨r1, r2, hpe, hr1, hr2⟩
  · exact absurd hin (List.not_mem_nil p)
  · have hr1m := hsub r1 hr1
    have hr1r : r1 ∈ List.range segs.length := (List.mem_filter.mp hr1m).1
    have hr1np := (List.mem_filter.mp hr1m).2
    have hpfold : p ∈ newPairs.foldl insertPair pairs :=
      foldl_insertPair_mem_new newPairs pairs p hp
    have hr1p : r1 ∈ p := by
      rw [hpe]; exact (mem_mkPair r1 r2 r1).mpr (Or.inl rfl)
    have hr1fold : r1 ∈ (newPairs.foldl insertPair pairs).flatten :=
      List.mem_flatten.mpr ⟨p, hpfold, hr1p⟩
    obtain ⟨added, hadd, -⟩ := foldl_insertPair_structure newPairs pairs
    refine filter_length_lt _ _ (List.range segs.length) ?_ r1 hr1r hr1np ?_
    · intro x hx hq
      simp only [decide_eq_true_eq] at hq ⊢
      intro hxp
      exact hq (by rw [hadd, List.flatten_append]; exact List.mem_append_left _ hxp)
    · simp only [decide_eq_false_iff_not, not_not]
      exact hr1fold

/-- The grower loop yields a result (never runs out) once the fuel
exceeds the number of unpaired segment indices. -/
theorem growerAux_some (segs : List Seg) :
    ∀ (fuel : ℕ) (pairs : List (List ℕ)),
      ((List.range segs.length).filter (fun i => i ∉ pairs.flatten)).length < fuel →
      ∃ out, growerAux segs fuel pairs = some out := by
  intro fuel
  induction fuel with
  | zero => intro pairs h; exact absurd h (Nat.not_lt_zero _)
  | succ fuel ih =>
    intro pairs hlt
    rw [growerAux_succ]
    rcases exceptCases (classifyLoop segs pairs
        ((List.range segs.length).filter (fun i => i ∉ pairs.flatten))) with
      ⟨e, hC⟩ | ⟨conn, hC⟩
    · rw [hC]; exact ⟨.error e, rfl⟩
    · rw [hC]
      dsimp only
      by_cases hl : ((List.range segs.length).filter
          (fun i => i ∉ pairs.flatten)).filter (fun u => u ∉ conn) = []
      · rw [if_pos hl]; exact ⟨.ok (pairs, .complete), rfl⟩
      · rw [if_neg hl]
        rcases exceptCases (growNewGo segs
            (((List.range segs.length).filter (fun i => i ∉ pairs.flatten)).filter
              (fun u => u ∉ conn)) pairs [] []) with ⟨e, hG⟩ | ⟨nps, hG⟩
        · rw [hG]; exact ⟨.error e, rfl⟩
        · rw [hG]
          dsimp only
          by_cases hn : nps = []
          · rw [if_pos hn]; exact ⟨.ok (pairs, .stalled), rfl⟩
          · rw [if_neg hn]
            refine ih (nps.foldl insertPair pairs) ?_
            refine Nat.lt_of_lt_of_le ?_ (Nat.lt_succ_iff.mp hlt)
            exact grower_measure_lt segs _ pairs nps
              (fun r hr => (List.mem_filter.mp hr).1) hG hn

/-- Claim C8 (amended): for every finite segment list and every starting
stripe-pair list, the Pair-Grower loop terminates after finitely many
iterations — it yields a definite outcome (complete, stalled, or a
raised error) rather than running forever; the fuel bound
segs.length + 1 always suffices. -/
theorem grower_terminates (segs : List Seg) (pairs : List (List ℕ)) :
    ∃ out, growerRun segs pairs = some out :=
  growerAux_some segs (segs.length + 1) pairs
    (Nat.lt_succ_of_le (le_trans (List.length_filter_le _ _)
      (le_of_eq (List.length_range segs.length))))

/-- The weld closeness test is symmetric. -/
theorem closeTol_symm (tol : ℚ) (a b : Pt) : closeTol tol a b = closeTol tol b a := by
  have h : normSq (ptSub a b) = normSq (ptSub b a) := by
    simp only [normSq, ptSub]
    ring
  rw [closeTol, closeTol, h]

/-- canon preserves tol-separation of the uniques list, only grows it,
and returns one of its members. -/
theorem canonPt_sep (tol : ℚ) (U : List Pt) (p : Pt)
    (hsep : ∀ a ∈ U, ∀ b ∈ U, closeTol tol a b = true → a = b) :
    (∀ a ∈ (canonPt U tol p).2, ∀ b ∈ (canonPt U tol p).2,
        closeTol tol a b = true → a = b) ∧
      (∀ a ∈ U, a ∈ (canonPt U tol p).2) ∧
      (canonPt U tol p).1 ∈ (canonPt U tol p).2 := by
  rw [canonPt]
  generalize hF : U.find? (fun c => closeTol tol p c) = oc
  cases oc with
  | some c =>
    dsimp only
    exact ⟨hsep, fun a ha => ha, List.mem_of_find?_eq_some hF⟩
  | none =>
    dsimp only
    have hnone : ∀ c ∈ U, closeTol tol p c = false := by
      intro c hc
      simpa using List.find?_eq_none.mp hF c hc
    refine ⟨?_, fun a ha => List.mem_append_left _ ha,
      List.mem_append_right _ (by simp)⟩
    intro a ha b hb hcl
    rcases List.mem_append.mp ha with haU | hap
    · rcases List.mem_append.mp hb with hbU | hbp
      · exact hsep a haU b hbU hcl
      · rw [List.mem_singleton] at hbp
        subst hbp
        rw [closeTol_symm, hnone a haU] at hcl
        exact absurd hcl Bool.false_ne_true
    · rw [List.mem_singleton] at hap
      subst hap
      rcases List.mem_append.mp hb with hbU | hbp
      · rw [hnone b hbU] at hcl
        exact absurd hcl Bool.false_ne_true
      · rw [List.mem_singleton] at hbp
        exact hbp.symm

/-- The weld loop preserves tol-separation of the uniques list, only
grows it, and emits only endpoints registered in it. -/
theorem weldGo_sep (tol : ℚ) :
    ∀ (l : List (Pt × Pt)) (U : List Pt),
      (∀ a ∈ U, ∀ b ∈ U, closeTol tol a b = true → a = b) →
      (∀ a ∈ (weldGo tol l U).2, ∀ b ∈ (weldGo tol l U).2,
          closeTol tol a b = true → a = b) ∧
        (∀ a ∈ U, a ∈ (weldGo tol l U).2) ∧
        (∀ ab ∈ (weldGo tol l U).1,
          ab.1 ∈ (weldGo tol l U).2 ∧ ab.2 ∈ (weldGo tol l U).2) := by
  intro l
  induction l with
  | nil => intro U h; exact ⟨h, fun a ha => ha, by simp [weldGo]⟩
  | cons ab rest ih =>
    intro U h
    obtain ⟨h1a, h1b, h1c⟩ := canonPt_sep tol U ab.1 h
    obtain ⟨h2a, h2b, h2c⟩ := canonPt_sep tol (canonPt U tol ab.1).2 ab.2 h1a
    obtain ⟨h3a, h3b, h3c⟩ := ih (canonPt (canonPt U tol ab.1).2 tol ab.2).2 h2a
    have e1 : (weldGo tol (ab :: rest) U).1 =
        ((canonPt U tol ab.1).1, (canonPt (canonPt U tol ab.1).2 tol ab.2).1) ::
          (weldGo tol rest (canonPt (canonPt U tol ab.1).2 tol ab.2).2).1 := rfl
    have e2 : (weldGo tol (ab :: rest) U).2 =
        (weldGo tol rest (canonPt (canonPt U tol ab.1).2 tol ab.2).2).2 := rfl
    rw [e1, e2]
    refine ⟨h3a, fun a ha => h3b a (h2b a (h1b a ha)), ?_⟩
    intro pq hpq
    rcases List.mem_cons.mp hpq with he | ht
    · subst he
      exact ⟨h3b _ (h2b _ h1c), h3b _ h2c⟩
    · exact h3c pq ht

/-- canon leaves a point unchanged when it is drawn from a tol-separated
superset of the current uniques. -/
theorem canonPt_fix (tol : ℚ) (V : List Pt)
    (hsep : ∀ a ∈ V, ∀ b ∈ V, closeTol tol a b = true → a = b)
    (U : List Pt) (p : Pt) (hU : ∀ a ∈ U, a ∈ V) (hp : p ∈ V) :
    (canonPt U tol p).1 = p ∧ ∀ a ∈ (canonPt U tol p).2, a ∈ V := by
  rw [canonPt]
  generalize hF : U.find? (fun c => closeTol tol p c) = oc
  cases oc with
  | some c =>
    dsimp only
    have hcU : c ∈ U := List.mem_of_find?_eq_some hF
    have hcl : closeTol tol p c = true := by
      simpa using List.find?_some hF
    exact ⟨(hsep p hp c (hU c hcU) hcl).symm, hU⟩
  | none =>
    dsimp only
    refine ⟨rfl, ?_⟩
    intro a ha
    rcases List.mem_append.mp ha with h1 | h2
    · exact hU a h1
    · rw [List.mem_singleton] at h2
      exact h2 ▸ hp

/-- The weld loop is the identity on segment lists whose endpoints all
come from a tol-separated superset of the current uniques. -/
theorem weldGo_fix (tol : ℚ) (V : List Pt)
    (hsep : ∀ a ∈ V, ∀ b ∈ V, closeTol tol a b = true → a = b) :
    ∀ (l : List (Pt × Pt)) (U : List Pt),
      (∀ a ∈ U, a ∈ V) →
      (∀ ab ∈ l, ab.1 ∈ V ∧ ab.2 ∈ V) →
      (weldGo tol l U).1 = l := by
  intro l
  induction l with
  | nil => intro U _ _; rfl
  | cons ab rest ih =>
    intro U hU hl
    have hab := hl ab (List.mem_cons_self ab rest)
    obtain ⟨hf1, hV1⟩ := canonPt_fix tol V hsep U ab.1 hU hab.1
    obtain ⟨hf2, hV2⟩ := canonPt_fix tol V hsep (canonPt U tol ab.1).2 ab.2 hV1 hab.2
    have e1 : (weldGo tol (ab :: rest) U).1 =
        ((canonPt U tol ab.1).1, (canonPt (canonPt U tol ab.1).2 tol ab.2).1) ::
          (weldGo tol rest (canonPt (canonPt U tol ab.1).2 tol ab.2).2).1 := rfl
    rw [e1, hf1, hf2, ih (canonPt (canonPt U tol ab.1).2 tol ab.2).2 hV2
      (fun pq hpq => hl pq (List.mem_cons_of_mem ab hpq))]

/-- Claim C7: the weld operation is idempotent — for every segment list
and every tolerance, welding the welded output changes nothing, because
every emitted endpoint is a registered unique and the registered uniques
are pairwise farther apart than the tolerance. -/
theorem weld_idempotent (l : List (Pt × Pt)) (tol : ℚ) :
    weld (weld l tol) tol = weld l tol := by
  obtain ⟨hsep, hsub, hmem⟩ := weldGo_sep tol l []
    (fun a ha => absurd ha (List.not_mem_nil a))
  simp only [weld]
  exact weldGo_fix tol (weldGo tol l []).2 hsep (weldGo tol l []).1 []
    (fun a ha => absurd ha (List.not_mem_nil a)) hmem

/-- Witness for C2: on one thick line with the constant square-face
polygoniser, identify emits the unit-square room, which satisfies the
positivity and minimum-area bounds. -/
theorem rooms_satisfy_area_bounds_witness :
    0 < (Room.mk 0 0 1 1).w ∧ 0 < (Room.mk 0 0 1 1).h ∧
      MIN_ROOM_AREA ≤ (Room.mk 0 0 1 1).w * (Room.mk 0 0 1 1).h :=
  rooms_satisfy_area_bounds (fun _ => [sqPoly]) true (some docOneLine) 7
    [⟨0, 0, 1, 1⟩] 43
    (by
      intro ls p hp
      simp at hp
      subst hp
      intro hv
      with_unfolding_all decide)
    (by with_unfolding_all rfl)
    (Room.mk 0 0 1 1) (List.mem_singleton_self _)

end PlanGround
